import Mathlib

/-!
# BShell: a shallow embedding of `bshell.c`

The shell reads a line from standard input (`read_line`), cuts it into tokens
(`split_line`, built on `strtok`), and runs the command (`dash_execute`) inside
the `loop` called by `main`.

Conventions of the embedding.

* A byte of the input is a `Char`.  A C string is the list of its characters;
  the terminating NUL is implicit at the end of the list, and a NUL met earlier
  ends the string there, as it does for the C library.
* `int` variables are natural numbers together with the bound `INT_MAX`; an
  addition leaving the range, a write outside an array and `strcmp` on a null
  pointer are undefined behaviour, rendered by `Outcome.undefined`.
* `malloc` and `realloc` are taken to succeed; their failure branches only
  print a message and call `exit(EXIT_FAILURE)`.
* The operating system is an oracle `Env` giving what `fork`, `execvp` and
  `waitpid` answer; everything the process does to the outside is recorded as
  a list of `Event`s.
* The two growing arrays are also described one cell at a time by `store`;
  `read_line_loop_store` and `split_line_loop_store` show that one turn of
  each loop is one `store`, so the states of the loops are those of
  `read_line_stored` and `split_line_stored`.
-/

namespace BShell

/-! ## Constants -/

/-- The macro `TOK_DELIM`, the string `"\t\r\n"`. -/
def TOK_DELIM : List Char := ['\t', '\r', '\n']

/-- The macro `LINE_BUFFER_SIZE`. -/
def LINE_BUFFER_SIZE : Nat := 1024

/-- The macro `TOKEN_BUFFER_SIZE`. -/
def TOKEN_BUFFER_SIZE : Nat := 256

/-- Largest value of a C `int` (32 bits). -/
def INT_MAX : Nat := 2147483647

/-- The macro `EXIT_FAILURE` of `stdlib.h`. -/
def EXIT_FAILURE : Int := 1

/-- The macro `MAGENTA`. -/
def MAGENTA : String := "\x1b[1;35m"

/-- The macro `RESET`. -/
def RESET : String := "\x1b[0m"

/-! ## Results and events -/

/-- How a call ends. -/
inductive Outcome (α : Type) where
  /-- the function returned this value -/
  | ret (a : α)
  /-- the process was ended by `exit(status)` -/
  | exit (status : Int)
  /-- `execvp` succeeded: the process now runs another program -/
  | replaced
  /-- undefined behaviour was reached -/
  | undefined
  /-- the step budget of the model ran out -/
  | fuel
  deriving DecidableEq, Repr

/-- What the process does to the outside world. -/
inductive Event where
  /-- text written to standard output -/
  | stdout (s : String)
  /-- text written to standard error -/
  | stderr (s : String)
  /-- a call of `fork()` -/
  | fork
  /-- a call of `execvp(file, argv)`; `argv` is listed up to its null pointer -/
  | execvp (file : List Char) (argv : List (List Char))
  /-- a call of `waitpid(cpid, &status, WUNTRACED)` -/
  | waitpid (cpid : Int)
  deriving DecidableEq, Repr

/-- Answers of the operating system to one call of `dash_execute`. -/
structure Env where
  /-- value returned by `fork()`: `0` in the child, negative on failure,
  the child's pid in the parent -/
  fork : Int
  /-- value returned by `execvp`, `none` when it does not return -/
  execvp : Option Int
  /-- status stored by `waitpid` -/
  wstatus : Int

/-! ## The tokenizer -/

/-- One call of `strtok` with the scan starting at `s`: skip the leading
delimiters; at the end of the string there is no token; otherwise the token
runs up to the next delimiter or the end of the string, the delimiter is
overwritten by NUL and the scan resumes after it.  Returns the token and the
place where the next call resumes. -/
def strtok (s : List Char) (delim : List Char) : Option (List Char × List Char) :=
  match s.dropWhile (fun c => decide (c ∈ delim)) with
  | [] => none
  | c :: t =>
    if c = '\x00' then none
    else
      let token := (c :: t).takeWhile (fun d => !(decide (d ∈ delim)) && !(d == '\x00'))
      match (c :: t).drop token.length with
      | [] => some (token, [])
      | d :: rest => if d = '\x00' then some (token, d :: rest) else some (token, rest)

/-- The `while (token != NULL)` loop of `split_line`.  `tokens` holds the
cells written so far (its length is `position`), `buffsize` is the capacity of
the array, `token` is the result of the last `strtok` call together with the
place where `strtok` resumes. -/
def split_line_loop : Nat → Option (List Char × List Char) → List (List Char) → Nat →
    Outcome (List (Option (List Char)))
  | 0, _, _, _ => .fuel
  | _ + 1, none, tokens, buffsize =>
    -- tokens[position] = NULL
    if tokens.length < buffsize then .ret (tokens.map some ++ [none]) else .undefined
  | n + 1, some (token, saved), tokens, buffsize =>
    -- tokens[position++] = token
    if tokens.length < buffsize then
      let tokens := tokens ++ [token]
      if tokens.length ≥ buffsize then
        -- buffsize += TOKEN_BUFFER_SIZE
        if buffsize + TOKEN_BUFFER_SIZE ≤ INT_MAX then
          split_line_loop n (strtok saved TOK_DELIM) tokens (buffsize + TOKEN_BUFFER_SIZE)
        else .undefined
      else split_line_loop n (strtok saved TOK_DELIM) tokens buffsize
    else .undefined

/-- The function `split_line`: the array of token pointers it returns, a null
pointer (`none`) closing it.  Every `strtok` call that finds a token consumes
at least one character, so `line.length + 1` steps always suffice. -/
def split_line (line : List Char) : Outcome (List (Option (List Char))) :=
  split_line_loop (line.length + 1) (strtok line TOK_DELIM) [] TOKEN_BUFFER_SIZE

/-! ## Runs -/

/-- A run of a piece of the program: the events it produced, in order, and
how it ended. -/
structure Run (α : Type) where
  /-- the events, oldest first -/
  events : List Event
  /-- how the run ended -/
  outcome : Outcome α

/-- Sequencing: when the first run returns, the second one follows it;
otherwise the first run ends the whole. -/
def Run.andThen {α β : Type} (r : Run α) (f : α → Run β) : Run β :=
  match r.outcome with
  | .ret a => ⟨r.events ++ (f a).events, (f a).outcome⟩
  | .exit s => ⟨r.events, .exit s⟩
  | .replaced => ⟨r.events, .replaced⟩
  | .undefined => ⟨r.events, .undefined⟩
  | .fuel => ⟨r.events, .fuel⟩

/-- A run that only returns a value. -/
def Run.pure {α : Type} (a : α) : Run α := ⟨[], .ret a⟩

/-- A run that produces one event. -/
def Run.emit (e : Event) : Run Unit := ⟨[e], .ret ()⟩

/-- A computation without events seen as a run. -/
def Run.lift {α : Type} (o : Outcome α) : Run α := ⟨[], o⟩

/-! ## The line reader -/

/-- The `while (1)` loop of `read_line`.  `buffer` holds the characters stored
so far (its length is `position`), `buffsize` is the current capacity.  An
empty `stdin` makes `getchar` return `EOF`.  The value returned is the buffer
(the string, without its closing NUL) and what is left of standard input. -/
def read_line_loop : List Char → List Char → Nat → Run (List Char × List Char)
  | [], buffer, buffsize =>
    -- c == EOF: printf("\n"); buffer[position] = '\0'; return buffer
    if buffer.length < buffsize then ⟨[.stdout "\n"], .ret (buffer, [])⟩
    else ⟨[.stdout "\n"], .undefined⟩
  | c :: stdin, buffer, buffsize =>
    if c = '\n' then
      if buffer.length < buffsize then ⟨[.stdout "\n"], .ret (buffer, stdin)⟩
      else ⟨[.stdout "\n"], .undefined⟩
    else if buffer.length < buffsize then
      -- buffer[position++] = c
      let buffer := buffer ++ [c]
      if buffer.length ≥ buffsize then
        -- buffsize += LINE_BUFFER_SIZE
        if buffsize + LINE_BUFFER_SIZE ≤ INT_MAX then
          read_line_loop stdin buffer (buffsize + LINE_BUFFER_SIZE)
        else ⟨[], .undefined⟩
      else read_line_loop stdin buffer buffsize
    else ⟨[], .undefined⟩

/-- The function `read_line`. -/
def read_line (stdin : List Char) : Run (List Char × List Char) :=
  read_line_loop stdin [] LINE_BUFFER_SIZE

/-! ## The executor -/

/-- The function `dash_exit`. -/
def dash_exit : Int := 0

/-- The argument vector a null-terminated array stands for: the strings before
the first null pointer. -/
def argv : List (Option (List Char)) → List (List Char)
  | some a :: rest => a :: argv rest
  | _ => []

/-- The function `dash_execute`, run by the process for which the operating
system answers `env`. -/
def dash_execute (args : List (Option (List Char))) (env : Env) : Run Int :=
  match args with
  | [] => ⟨[], .undefined⟩
  | none :: _ => ⟨[], .undefined⟩            -- strcmp(NULL, "exit")
  | some a0 :: _ =>
    if a0 = "exit".toList then ⟨[], .ret dash_exit⟩
    else
      -- cpid = fork()
      let cpid := env.fork
      if cpid = 0 then
        match env.execvp with
        | none => ⟨[.fork, .execvp a0 (argv args)], .replaced⟩
        | some r =>
          if r < 0 then
            ⟨[.fork, .execvp a0 (argv args),
              .stderr (MAGENTA ++ "bshell: Command not found!" ++ RESET ++ "\n")],
             .exit EXIT_FAILURE⟩
          else ⟨[.fork, .execvp a0 (argv args)], .ret 1⟩
      else if cpid < 0 then
        ⟨[.fork, .stderr (MAGENTA ++ "bshell: Error Forking!" ++ RESET ++ "\n")],
         .exit EXIT_FAILURE⟩
      else ⟨[.fork, .waitpid cpid], .ret 1⟩

/-! ## The loop -/

/-- The `do ... while (status)` loop of `loop`, from its iteration number `i`
on.  `env i` holds the answers of the operating system during iteration `i`.
The value returned is what is left of standard input when the loop ends. -/
def loop_from : Nat → Nat → List Char → (Nat → Env) → Run (List Char)
  | 0, _, _, _ => ⟨[], .fuel⟩
  | n + 1, i, stdin, env =>
    (Run.emit (.stdout "> ")).andThen fun _ =>
    (read_line stdin).andThen fun lr =>
    (Run.lift (split_line lr.1)).andThen fun args =>
    (dash_execute args (env i)).andThen fun status =>
    if status ≠ 0 then loop_from n (i + 1) lr.2 env else Run.pure lr.2

/-- The function `loop`.  An iteration that does not end the run reads at
least one character, so `stdin.length + 1` iterations always suffice. -/
def loop (stdin : List Char) (env : Nat → Env) : Run (List Char) :=
  loop_from (stdin.length + 1) 0 stdin env

/-- The function `main`: the exit code of the program and what is left of
standard input. -/
def main (stdin : List Char) (env : Nat → Env) : Run (Int × List Char) :=
  (loop stdin env).andThen fun rest => Run.pure (0, rest)

/-! ## The growing arrays, one cell at a time -/

/-- How storing a cell ends. -/
inductive Stored (σ : Type) where
  /-- the cell was written; the array and its capacity afterwards -/
  | ok (s : σ)
  /-- the cell lies outside the array -/
  | out_of_bounds
  /-- the new capacity does not fit in an `int` -/
  | overflow
  deriving DecidableEq, Repr

/-- The statements `cells[position++] = x; if (position >= buffsize) buffsize
+= increment;` (with the `realloc` that keeps the cells), which `read_line`
runs on its buffer with `LINE_BUFFER_SIZE` and `split_line` on its token array
with `TOKEN_BUFFER_SIZE`.  `cells` holds the cells written so far, its length
is `position`. -/
def store {α : Type} (increment : Nat) (x : α) (cells : List α) (buffsize : Nat) :
    Stored (List α × Nat) :=
  if cells.length < buffsize then
    let cells := cells ++ [x]
    if cells.length ≥ buffsize then
      if buffsize + increment ≤ INT_MAX then .ok (cells, buffsize + increment) else .overflow
    else .ok (cells, buffsize)
  else .out_of_bounds

/-- Storing several cells one after the other. -/
def store_all {α : Type} (increment : Nat) : List α → List α → Nat → Stored (List α × Nat)
  | [], cells, buffsize => .ok (cells, buffsize)
  | x :: xs, cells, buffsize =>
    match store increment x cells buffsize with
    | .ok st => store_all increment xs st.1 st.2
    | .out_of_bounds => .out_of_bounds
    | .overflow => .overflow

/-- The buffer of `read_line` and its capacity once the characters `chars`
(none of them a newline) have been read and stored. -/
def read_line_stored (chars : List Char) : Stored (List Char × Nat) :=
  store_all LINE_BUFFER_SIZE chars [] LINE_BUFFER_SIZE

/-- The token array of `split_line` and its capacity once the tokens `tokens`
have been stored. -/
def split_line_stored (tokens : List (List Char)) : Stored (List (List Char) × Nat) :=
  store_all TOKEN_BUFFER_SIZE tokens [] TOKEN_BUFFER_SIZE

/-- The tokens that the successive calls of `strtok` return, `token` being the
result of the last call. -/
def strtok_all : Nat → Option (List Char × List Char) → List (List Char)
  | 0, _ => []
  | _ + 1, none => []
  | n + 1, some (token, saved) => token :: strtok_all n (strtok saved TOK_DELIM)

/-- The tokens that the calls of `strtok` made by `split_line` find in a line. -/
def tokens_of (line : List Char) : List (List Char) :=
  strtok_all (line.length + 1) (strtok line TOK_DELIM)

/-- A string laid out as gaps and tokens in turn: the first gap, the first
token, the second gap, and so on up to the gap after the last token. -/
def weave : List (List Char) → List (List Char) → List Char
  | g :: gaps, t :: tokens => g ++ t ++ weave gaps tokens
  | g :: _, [] => g
  | [], _ => []

/-- The positions at which the tokens start in `weave gaps tokens`, counted
from `base`. -/
def offsets : Nat → List (List Char) → List (List Char) → List Nat
  | base, g :: gaps, t :: tokens =>
    (base + g.length) :: offsets (base + g.length + t.length) gaps tokens
  | _, _, _ => []

/-! ## Facts about the tokenizer -/

/-- On a string made of delimiters only `strtok` finds no token. -/
theorem strtok_of_all_delim (s : List Char) (h : ∀ c ∈ s, c ∈ TOK_DELIM) :
    strtok s TOK_DELIM = none := by
  have hd : s.dropWhile (fun c => decide (c ∈ TOK_DELIM)) = [] := by
    rw [List.dropWhile_eq_nil_iff]
    intro c hc
    simpa using h c hc
  simp [strtok, hd]

/-- On a non-empty string without delimiter and without NUL the first call of
`strtok` returns the whole string and leaves nothing to scan. -/
theorem strtok_of_no_delim (c : Char) (t : List Char) (h0 : '\x00' ∉ c :: t)
    (h : ∀ d ∈ c :: t, d ∉ TOK_DELIM) :
    strtok (c :: t) TOK_DELIM = some (c :: t, []) := by
  have hc : c ∉ TOK_DELIM := h c (List.mem_cons_self _ _)
  have hc0 : c ≠ '\x00' := fun e => h0 (e ▸ List.mem_cons_self _ _)
  have htake : (c :: t).takeWhile (fun d => !(decide (d ∈ TOK_DELIM)) && !(d == '\x00'))
      = c :: t := by
    rw [List.takeWhile_eq_self_iff]
    intro d hd
    have h1 : d ∉ TOK_DELIM := h d hd
    have h2 : d ≠ '\x00' := fun e => h0 (e ▸ hd)
    simp [h1, h2]
  unfold strtok
  rw [List.dropWhile_cons_of_neg (by simpa using hc)]
  simp only [hc0, if_false, htake, List.drop_length]

/-- A line made of the delimiters of `TOK_DELIM` only has no token. -/
theorem split_line_of_all_delim (line : List Char) (h : ∀ c ∈ line, c ∈ TOK_DELIM) :
    split_line line = .ret [none] := by
  simp [split_line, strtok_of_all_delim line h, split_line_loop, TOKEN_BUFFER_SIZE]

/-- A non-empty line without delimiter and without NUL is one token. -/
theorem split_line_of_no_delim (line : List Char) (hne : line ≠ []) (h0 : '\x00' ∉ line)
    (h : ∀ c ∈ line, c ∉ TOK_DELIM) :
    split_line line = .ret [some line, none] := by
  obtain ⟨c, t, rfl⟩ := List.exists_cons_of_ne_nil hne
  have hnil : strtok [] TOK_DELIM = none := by decide
  simp [split_line, strtok_of_no_delim c t h0 h, split_line_loop, TOKEN_BUFFER_SIZE, hnil]

/-! ## Facts about the line reader -/

/-- The reading loop, started with room in the buffer, returns the buffer
extended by the characters before the first newline, provided the resulting
line leaves room for one more increment of the capacity within `int`. -/
theorem read_line_loop_eq (stdin buffer : List Char) (buffsize : Nat)
    (hpos : buffer.length < buffsize)
    (hlen : buffer.length + (stdin.takeWhile (fun c => c != '\n')).length + LINE_BUFFER_SIZE
      ≤ INT_MAX) :
    read_line_loop stdin buffer buffsize =
      ⟨[.stdout "\n"], .ret (buffer ++ stdin.takeWhile (fun c => c != '\n'),
        (stdin.dropWhile (fun c => c != '\n')).drop 1)⟩ := by
  induction stdin generalizing buffer buffsize with
  | nil => simp [read_line_loop, hpos]
  | cons c stdin ih =>
    by_cases hc : c = '\n'
    · subst hc
      simp [read_line_loop, hpos]
    · have hlen' : buffer.length + 1 + (stdin.takeWhile (fun c => c != '\n')).length
          + LINE_BUFFER_SIZE ≤ INT_MAX := by
        simp [List.takeWhile_cons, hc] at hlen
        omega
      have hstep : (buffer ++ [c]).length = buffer.length + 1 := by simp
      have hres : (buffer ++ [c]) ++ stdin.takeWhile (fun c => c != '\n')
          = buffer ++ (c :: stdin).takeWhile (fun c => c != '\n') := by
        simp [List.takeWhile_cons, hc]
      have hdrop : (stdin.dropWhile (fun c => c != '\n')).drop 1
          = ((c :: stdin).dropWhile (fun c => c != '\n')).drop 1 := by
        simp [List.dropWhile_cons, hc]
      rw [read_line_loop, if_neg hc, if_pos hpos]
      simp only [hstep]
      by_cases hg : buffer.length + 1 ≥ buffsize
      · have hL : LINE_BUFFER_SIZE = 1024 := rfl
        have hov : buffsize + LINE_BUFFER_SIZE ≤ INT_MAX := by omega
        rw [if_pos hg, if_pos hov, ih _ _ (by rw [hstep]; omega) (by rw [hstep]; exact hlen'),
          hres, hdrop]
      · rw [if_neg hg, ih _ _ (by rw [hstep]; omega) (by rw [hstep]; exact hlen'), hres, hdrop]

/-- The reading loop reaches the overflow of `buffsize += LINE_BUFFER_SIZE`
when the line brings the number of stored characters to
`INT_MAX + 1 - LINE_BUFFER_SIZE`. -/
theorem read_line_loop_overflow (pre rest buffer : List Char) (buffsize : Nat)
    (hnl : ∀ c ∈ pre, c ≠ '\n')
    (hpos : buffer.length < buffsize) (hdiv : buffsize % LINE_BUFFER_SIZE = 0)
    (hmax : buffsize ≤ INT_MAX)
    (hlen : buffer.length + pre.length + LINE_BUFFER_SIZE = INT_MAX + 1) :
    (read_line_loop (pre ++ rest) buffer buffsize).outcome = .undefined := by
  induction pre generalizing buffer buffsize with
  | nil =>
    simp only [LINE_BUFFER_SIZE, INT_MAX, List.length_nil] at *
    omega
  | cons c pre ih =>
    have hc : c ≠ '\n' := hnl c (List.mem_cons_self _ _)
    have hnl' : ∀ d ∈ pre, d ≠ '\n' := fun d hd => hnl d (List.mem_cons_of_mem _ hd)
    have hstep : (buffer ++ [c]).length = buffer.length + 1 := by simp
    have hlen' : (buffer ++ [c]).length + pre.length + LINE_BUFFER_SIZE = INT_MAX + 1 := by
      simp only [List.length_cons] at hlen
      rw [hstep]; omega
    rw [List.cons_append, read_line_loop, if_neg hc, if_pos hpos]
    simp only [hstep]
    by_cases hg : buffer.length + 1 ≥ buffsize
    · rw [if_pos hg]
      by_cases hov : buffsize + LINE_BUFFER_SIZE ≤ INT_MAX
      · rw [if_pos hov]
        refine ih _ _ hnl' (by rw [hstep]; simp only [LINE_BUFFER_SIZE]; omega) ?_ hov hlen'
        simp only [LINE_BUFFER_SIZE] at *
        omega
      · rw [if_neg hov]
    · rw [if_neg hg]
      exact ih _ _ hnl' (by rw [hstep]; omega) hdiv hmax hlen'

/-- Reading a line that is followed by a newline or by the end of input:
`read_line` returns the line and leaves what follows the newline. -/
theorem read_line_of_line (l tail : List Char) (hnl : ∀ c ∈ l, c ≠ '\n')
    (htail : ∀ c ∈ tail.head?, c = '\n') (hlen : l.length + LINE_BUFFER_SIZE ≤ INT_MAX) :
    read_line (l ++ tail) = ⟨[.stdout "\n"], .ret (l, tail.tail)⟩ := by
  have hp : ∀ a ∈ l, (fun c => c != '\n') a = true := by
    intro a ha
    simpa using hnl a ha
  have ht : tail.takeWhile (fun c => c != '\n') = [] := by
    cases tail with
    | nil => rfl
    | cons d r =>
      have hd : d = '\n' := htail d (by simp)
      simp [hd]
  have hd : (tail.dropWhile (fun c => c != '\n')).drop 1 = tail.tail := by
    cases tail with
    | nil => rfl
    | cons d r =>
      have hd : d = '\n' := htail d (by simp)
      simp [hd]
  have htake : (l ++ tail).takeWhile (fun c => c != '\n') = l := by
    rw [List.takeWhile_append_of_pos hp, ht, List.append_nil]
  have hdrop : ((l ++ tail).dropWhile (fun c => c != '\n')).drop 1 = tail.tail := by
    rw [List.dropWhile_append_of_pos hp, hd]
  have h := read_line_loop_eq (l ++ tail) [] LINE_BUFFER_SIZE (by decide)
    (by rw [htake]; simpa using hlen)
  rw [htake, hdrop] at h
  simpa [read_line] using h

/-! ## Facts about the executor -/

/-- The argument vector of an array made of tokens and the closing null
pointer is the list of the tokens. -/
theorem argv_map_some (ts : List (List Char)) : argv (ts.map some ++ [none]) = ts := by
  induction ts with
  | nil => rfl
  | cons t ts ih => simp [argv, ih]

/-- In the parent, after a successful `fork`, a command other than `exit` is
one `fork`, one `waitpid` on the child, and the value 1. -/
theorem dash_execute_parent (t : List Char) (rest : List (Option (List Char))) (env : Env)
    (ht : t ≠ "exit".toList) (hfork : 0 < env.fork) :
    dash_execute (some t :: rest) env = ⟨[.fork, .waitpid env.fork], .ret 1⟩ := by
  have h0 : env.fork ≠ 0 := by omega
  have h1 : ¬ env.fork < 0 := by omega
  have ht' : ¬ t = ['e', 'x', 'i', 't'] := ht
  simp [dash_execute, ht', h0, h1]

/-! ## Facts about the loop -/

/-- The loop on a stream of command lines closed by a line whose first token
is `exit`: every command line costs a prompt, the echo of the newline, one
`fork` and one `waitpid`; the loop returns after the `exit` line and leaves
the rest of the input unread. -/
theorem loop_from_commands (lines : List (List Char)) (last tail : List Char)
    (env : Nat → Env) (fuel i : Nat) (hfuel : lines.length < fuel)
    (hlines : ∀ l ∈ lines, (∀ c ∈ l, c ≠ '\n') ∧ l.length + LINE_BUFFER_SIZE ≤ INT_MAX ∧
      ∃ t rest, split_line l = .ret (some t :: rest) ∧ t ≠ "exit".toList)
    (hnl : ∀ c ∈ last, c ≠ '\n') (hlen : last.length + LINE_BUFFER_SIZE ≤ INT_MAX)
    (hexit : ∃ rest, split_line last = .ret (some "exit".toList :: rest))
    (htail : ∀ c ∈ tail.head?, c = '\n')
    (hfork : ∀ j, 0 < (env j).fork) :
    loop_from fuel i (lines.flatMap (fun l => l ++ ['\n']) ++ (last ++ tail)) env =
      ⟨(List.range' i lines.length).flatMap
          (fun k => [.stdout "> ", .stdout "\n", .fork, .waitpid (env k).fork])
        ++ [.stdout "> ", .stdout "\n"], .ret tail.tail⟩ := by
  induction lines generalizing fuel i with
  | nil =>
    obtain ⟨n, rfl⟩ : ∃ n, fuel = n + 1 := ⟨fuel - 1, by simp at hfuel; omega⟩
    obtain ⟨rest, hrest⟩ := hexit
    simp [loop_from, Run.andThen, Run.emit, Run.lift, Run.pure,
      read_line_of_line last tail hnl htail hlen, hrest, dash_execute, dash_exit]
  | cons l lines ih =>
    obtain ⟨n, rfl⟩ : ∃ n, fuel = n + 1 := ⟨fuel - 1, by simp at hfuel; omega⟩
    obtain ⟨hl1, hl2, t, rest, hsplit, ht⟩ := hlines l (List.mem_cons_self _ _)
    have hread := read_line_of_line l
      ('\n' :: (lines.flatMap (fun l => l ++ ['\n']) ++ (last ++ tail))) hl1 (by simp) hl2
    have hih := ih n (i + 1) (by simp at hfuel; omega)
      (fun l hl => hlines l (List.mem_cons_of_mem _ hl))
    have hstdin : (l :: lines).flatMap (fun l => l ++ ['\n']) ++ (last ++ tail)
        = l ++ '\n' :: (lines.flatMap (fun l => l ++ ['\n']) ++ (last ++ tail)) := by
      simp
    rw [hstdin, loop_from]
    simp [Run.andThen, Run.emit, Run.lift, hread, hsplit,
      dash_execute_parent t rest (env i) ht (hfork i), hih, List.range'_succ]

/-- A stream of newline-terminated lines has at least as many characters as
lines. -/
theorem length_le_length_lines (lines : List (List Char)) :
    lines.length ≤ (lines.flatMap (fun l => l ++ ['\n'])).length := by
  induction lines with
  | nil => simp
  | cons l lines ih =>
    simp only [List.flatMap_cons, List.length_append, List.length_cons, List.length_nil]
    omega

/-- The events of `n` command lines contain `n` calls of `fork`. -/
theorem count_fork_commands (env : Nat → Env) (n i : Nat) :
    ((List.range' i n).flatMap
        (fun k => [Event.stdout "> ", .stdout "\n", .fork, .waitpid (env k).fork])
      ++ [Event.stdout "> ", Event.stdout "\n"]).count Event.fork = n := by
  induction n generalizing i with
  | zero => simp [List.count_cons]
  | succ n ih =>
    have h := ih (i + 1)
    rw [List.range'_succ, List.flatMap_cons, List.append_assoc, List.count_append, h]
    simp [List.count_cons]
    omega

/-! ## The step budgets suffice -/

/-- A call of `strtok` that finds a token resumes strictly further in the
string. -/
theorem strtok_saved_lt (s token saved : List Char)
    (h : strtok s TOK_DELIM = some (token, saved)) : saved.length < s.length := by
  have hle : (s.dropWhile (fun c => decide (c ∈ TOK_DELIM))).length ≤ s.length :=
    (List.dropWhile_suffix _).length_le
  unfold strtok at h
  cases hs : s.dropWhile (fun c => decide (c ∈ TOK_DELIM)) with
  | nil => simp [hs] at h
  | cons c t =>
    rw [hs] at h hle
    simp only [List.length_cons] at hle
    by_cases hc : c = '\x00'
    · simp [hc] at h
    · simp only [hc, if_false] at h
      have hdl := List.length_drop
        ((c :: t).takeWhile (fun d => !(decide (d ∈ TOK_DELIM)) && !(d == '\x00'))).length
        (c :: t)
      cases hd : (c :: t).drop
          ((c :: t).takeWhile (fun d => !(decide (d ∈ TOK_DELIM)) && !(d == '\x00'))).length with
      | nil =>
        rw [hd] at h
        simp only [Option.some.injEq, Prod.mk.injEq] at h
        rw [← h.2]
        simp only [List.length_nil]
        omega
      | cons d rest =>
        rw [hd] at h hdl
        simp only [List.length_cons] at hdl
        by_cases hk : ((c :: t).takeWhile
            (fun d => !(decide (d ∈ TOK_DELIM)) && !(d == '\x00'))).length = 0
        · rw [hk, List.drop_zero] at hd
          have hdc : d = c := by
            injection hd with h1 _
            exact h1.symm
          have hd0 : d ≠ '\x00' := hdc ▸ hc
          simp only [hd0, if_false, Option.some.injEq, Prod.mk.injEq] at h
          rw [← h.2]
          omega
        · by_cases hd0 : d = '\x00'
          · simp only [hd0, if_true, Option.some.injEq, Prod.mk.injEq] at h
            rw [← h.2]
            simp only [List.length_cons]
            omega
          · simp only [hd0, if_false, Option.some.injEq, Prod.mk.injEq] at h
            rw [← h.2]
            omega

/-- The tokenizing loop does not run out of steps when it is given more steps
than characters left to scan. -/
theorem split_line_loop_ne_fuel (n : Nat) (token : Option (List Char × List Char))
    (tokens : List (List Char)) (buffsize : Nat) (hn : 0 < n)
    (h : ∀ t s, token = some (t, s) → s.length + 1 < n) :
    split_line_loop n token tokens buffsize ≠ .fuel := by
  induction n generalizing token tokens buffsize with
  | zero => omega
  | succ n ih =>
    cases token with
    | none =>
      rw [split_line_loop]
      split <;> simp
    | some ts =>
      obtain ⟨t, s⟩ := ts
      have hs : s.length + 1 < n + 1 := h t s rfl
      have hrec : ∀ tokens' buffsize',
          split_line_loop n (strtok s TOK_DELIM) tokens' buffsize' ≠ .fuel := by
        intro tokens' buffsize'
        refine ih _ _ _ (by omega) ?_
        intro t' s' hts
        have := strtok_saved_lt s t' s' hts
        omega
      rw [split_line_loop]
      dsimp only
      split_ifs
      · exact hrec _ _
      · simp
      · exact hrec _ _
      · simp

/-- The function `split_line` never runs out of steps. -/
theorem split_line_ne_fuel (line : List Char) : split_line line ≠ .fuel := by
  refine split_line_loop_ne_fuel _ _ _ _ (by omega) ?_
  intro t s hts
  have := strtok_saved_lt line t s hts
  omega

/-- A sequence of two runs is out of steps only when one of them is. -/
theorem Run.andThen_fuel {α β : Type} (r : Run α) (f : α → Run β)
    (h : (r.andThen f).outcome = .fuel) :
    r.outcome = .fuel ∨ ∃ a, r.outcome = .ret a ∧ (f a).outcome = .fuel := by
  unfold Run.andThen at h
  cases hr : r.outcome with
  | ret a =>
    rw [hr] at h
    exact Or.inr ⟨a, rfl, h⟩
  | exit st => rw [hr] at h; cases h
  | replaced => rw [hr] at h; cases h
  | undefined => rw [hr] at h; cases h
  | fuel => exact Or.inl rfl

/-- The reading loop has no step budget: it is never out of steps. -/
theorem read_line_loop_ne_fuel (stdin buffer : List Char) (buffsize : Nat) :
    (read_line_loop stdin buffer buffsize).outcome ≠ .fuel := by
  induction stdin generalizing buffer buffsize with
  | nil =>
    rw [read_line_loop]
    split_ifs <;> simp
  | cons c stdin ih =>
    rw [read_line_loop]
    dsimp only
    split_ifs <;> first | exact ih _ _ | simp

/-- When the reading loop returns, either the input was already at its end
and nothing was added to the buffer, or at least one character was read. -/
theorem read_line_loop_rest (stdin buffer : List Char) (buffsize : Nat)
    (l rest : List Char)
    (h : (read_line_loop stdin buffer buffsize).outcome = .ret (l, rest)) :
    (stdin = [] ∧ l = buffer ∧ rest = []) ∨ rest.length < stdin.length := by
  induction stdin generalizing buffer buffsize with
  | nil =>
    rw [read_line_loop] at h
    split_ifs at h
    simp only [Outcome.ret.injEq, Prod.mk.injEq] at h
    exact Or.inl ⟨rfl, h.1.symm, h.2.symm⟩
  | cons c stdin ih =>
    have hrec : ∀ buffer' buffsize',
        (read_line_loop stdin buffer' buffsize').outcome = .ret (l, rest) →
        rest.length < (c :: stdin).length := by
      intro buffer' buffsize' h'
      rcases ih buffer' buffsize' h' with ⟨_, _, hr⟩ | hlt
      · rw [hr]; simp
      · simp only [List.length_cons]; omega
    rw [read_line_loop] at h
    dsimp only at h
    have hnl : (Run.mk [Event.stdout "\n"] (Outcome.ret (buffer, stdin))).outcome
        = .ret (l, rest) → rest.length < (c :: stdin).length := by
      intro h'
      simp only [Outcome.ret.injEq, Prod.mk.injEq] at h'
      rw [← h'.2]
      simp
    split_ifs at h <;>
      first
      | exact Or.inr (hnl h)
      | exact Or.inr (hrec _ _ h)

/-- The executor has no step budget: it is never out of steps. -/
theorem dash_execute_ne_fuel (args : List (Option (List Char))) (env : Env) :
    (dash_execute args env).outcome ≠ .fuel := by
  unfold dash_execute
  split
  · simp
  · simp
  · dsimp only
    split_ifs
    · simp
    · split
      · simp
      · split_ifs <;> simp
    · simp
    · simp

/-- The loop does not run out of steps when it is given more iterations than
there are characters on standard input. -/
theorem loop_from_ne_fuel (fuel i : Nat) (stdin : List Char) (env : Nat → Env)
    (hfuel : stdin.length < fuel) :
    (loop_from fuel i stdin env).outcome ≠ .fuel := by
  induction fuel generalizing i stdin with
  | zero => omega
  | succ n ih =>
    intro h
    rw [loop_from] at h
    rcases Run.andThen_fuel _ _ h with h1 | ⟨_, _, h1⟩
    · cases h1
    rcases Run.andThen_fuel _ _ h1 with h2 | ⟨lr, hlr, h2⟩
    · exact read_line_loop_ne_fuel _ _ _ h2
    rcases Run.andThen_fuel _ _ h2 with h3 | ⟨args, hargs, h3⟩
    · exact split_line_ne_fuel lr.1 h3
    rcases Run.andThen_fuel _ _ h3 with h4 | ⟨status, hstatus, h4⟩
    · exact dash_execute_ne_fuel _ _ h4
    split_ifs at h4 with hs
    · rcases read_line_loop_rest stdin [] LINE_BUFFER_SIZE lr.1 lr.2 hlr with ⟨_, hl, _⟩ | hlt
      · have hargs' : split_line lr.1 = .ret args := hargs
        rw [hl] at hargs'
        have hnone : split_line [] = .ret [none] := by decide
        rw [hnone] at hargs'
        injection hargs' with hargs'
        rw [← hargs'] at hstatus
        simp [dash_execute] at hstatus
      · exact ih (i + 1) lr.2 (by omega) h4
    · cases h4

/-- The function `loop` never runs out of steps. -/
theorem loop_ne_fuel (stdin : List Char) (env : Nat → Env) :
    (loop stdin env).outcome ≠ .fuel :=
  loop_from_ne_fuel _ 0 stdin env (by omega)

/-! ## The claims -/

/-- C1: on the line `ls -la /tmp`, whose words are separated by spaces,
`split_line` returns the whole line as a single token, not the three tokens
`ls`, `-la`, `/tmp`: the space is missing from `TOK_DELIM`.  The same words
separated by tabs do give the three tokens. -/
theorem split_line_ls_la_tmp :
    split_line "ls -la /tmp".toList = .ret [some "ls -la /tmp".toList, none] ∧
    split_line "ls -la /tmp".toList ≠
      .ret [some "ls".toList, some "-la".toList, some "/tmp".toList, none] ∧
    split_line "ls\t-la\t/tmp".toList =
      .ret [some "ls".toList, some "-la".toList, some "/tmp".toList, none] := by
  decide

/-- C2: a line made of one space is not tokenized to zero tokens: `split_line`
returns the space as a token.  Lines made of tabs, carriage returns and
newlines, and the empty line, do give zero tokens. -/
theorem split_line_space_is_token :
    split_line " ".toList = .ret [some " ".toList, none] ∧
    split_line " \t ".toList = .ret [some " ".toList, some " ".toList, none] ∧
    split_line "\t\r\n\t".toList = .ret [none] ∧
    split_line [] = .ret [none] := by
  decide

/-- C3, counterexample: the empty line contains no delimiter character (space
included), and `split_line` gives it zero tokens, not one token. -/
theorem split_line_empty_no_token :
    (∀ c ∈ ([] : List Char), c ∉ TOK_DELIM ∧ c ≠ ' ') ∧
    split_line [] = .ret [none] ∧
    ¬ ∃ t, split_line [] = .ret [some t, none] := by
  refine ⟨by simp, by decide, ?_⟩
  rintro ⟨t, ht⟩
  have h : split_line [] = .ret [none] := by decide
  rw [h] at ht
  simp at ht

/-- C3, amended: for every non-empty line (a C string, hence without NUL)
that contains none of the delimiters tab, carriage return and newline,
`split_line` returns exactly one token, equal to the line. -/
theorem split_line_one_token (line : List Char) (hne : line ≠ [])
    (h0 : '\x00' ∉ line) (h : ∀ c ∈ line, c ∉ TOK_DELIM) :
    split_line line = .ret [some line, none] :=
  split_line_of_no_delim line hne h0 h

theorem split_line_one_token_witness :
    "/bin/ls".toList ≠ [] ∧ '\x00' ∉ "/bin/ls".toList ∧
    (∀ c ∈ "/bin/ls".toList, c ∉ TOK_DELIM) ∧
    split_line "/bin/ls".toList = .ret [some "/bin/ls".toList, none] :=
  ⟨by decide, by decide, by decide,
    split_line_one_token "/bin/ls".toList (by decide) (by decide) (by decide)⟩

/-- C4: when the first token is `exit`, whatever follows it, `dash_execute`
returns 0 and produces no event at all, so `fork` is not called. -/
theorem dash_execute_exit (rest : List (Option (List Char))) (env : Env) :
    dash_execute (some "exit".toList :: rest) env = ⟨[], .ret 0⟩ ∧
    Event.fork ∉ (dash_execute (some "exit".toList :: rest) env).events := by
  have h : dash_execute (some "exit".toList :: rest) env = ⟨[], .ret 0⟩ := by
    simp [dash_execute, dash_exit]
  rw [h]
  simp

/-- C5: for a first token other than `exit`, when `fork` succeeded (the parent
got a positive pid), `dash_execute` returns 1 in the parent whatever the
operating system answers otherwise, in particular for every status that
`waitpid` stores for the child: exit with any code (the failure code of a
command that was not found included), termination by a signal, stop. -/
theorem dash_execute_returns_one (t : List Char) (rest : List (Option (List Char)))
    (cpid : Int) (execvp : Option Int) (wstatus : Int)
    (ht : t ≠ "exit".toList) (hfork : 0 < cpid) :
    (dash_execute (some t :: rest) ⟨cpid, execvp, wstatus⟩).outcome = .ret 1 := by
  rw [dash_execute_parent t rest ⟨cpid, execvp, wstatus⟩ ht hfork]

theorem dash_execute_returns_one_witness :
    "nosuchcmd".toList ≠ "exit".toList ∧ (0 : Int) < 4242 ∧
    (dash_execute [some "nosuchcmd".toList, none] ⟨4242, some (-1), 256⟩).outcome = .ret 1 :=
  ⟨by decide, by decide,
    dash_execute_returns_one "nosuchcmd".toList [none] 4242 (some (-1)) 256
      (by decide) (by decide)⟩

/-- C6, counterexample: on the token sequence `ls`, whose first token is not
`exit`, when `fork` fails (returns -1) `dash_execute` creates no child and
waits for none: after the call of `fork` it writes its message and ends the
process with `exit(EXIT_FAILURE)`; there is no `execvp`, no `waitpid` and no
return. -/
theorem dash_execute_fork_failure_no_child :
    "ls".toList ≠ "exit".toList ∧
    dash_execute [some "ls".toList, none] ⟨-1, none, 0⟩ =
      ⟨[.fork, .stderr (MAGENTA ++ "bshell: Error Forking!" ++ RESET ++ "\n")],
        .exit EXIT_FAILURE⟩ ∧
    (∀ cpid, Event.waitpid cpid ∉
      (dash_execute [some "ls".toList, none] ⟨-1, none, 0⟩).events) ∧
    (∀ file args, Event.execvp file args ∉
      (dash_execute [some "ls".toList, none] ⟨-1, none, 0⟩).events) ∧
    (∀ v, (dash_execute [some "ls".toList, none] ⟨-1, none, 0⟩).outcome ≠ .ret v) := by
  have h : dash_execute [some "ls".toList, none] ⟨-1, none, 0⟩ =
      ⟨[.fork, .stderr (MAGENTA ++ "bshell: Error Forking!" ++ RESET ++ "\n")],
        .exit EXIT_FAILURE⟩ := rfl
  refine ⟨by decide, h, ?_, ?_, ?_⟩
  · intro cpid
    rw [h]
    simp
  · intro file args
    rw [h]
    simp
  · intro v
    rw [h]
    simp

/-- C6, amended: for a token sequence `t :: ts` with `t` other than `exit`,
when process creation succeeds, that is when `fork` returns the pid `cpid > 0`
of the child to the parent and 0 to the child: the parent calls `fork` exactly
once, calls `waitpid` on that child and only then returns 1; the child calls
`execvp` with the first token as the file and the whole token sequence,
unchanged and in order, as the argument vector, and does nothing else than
report a failure of that call. -/
theorem dash_execute_spawns_one_child (t : List Char) (ts : List (List Char))
    (cpid : Int) (execvp : Option Int) (wstatus : Int)
    (ht : t ≠ "exit".toList) (hfork : 0 < cpid) :
    dash_execute ((t :: ts).map some ++ [none]) ⟨cpid, execvp, wstatus⟩
      = ⟨[.fork, .waitpid cpid], .ret 1⟩ ∧
    (dash_execute ((t :: ts).map some ++ [none]) ⟨cpid, execvp, wstatus⟩).events.count .fork
      = 1 ∧
    ∃ more,
      (dash_execute ((t :: ts).map some ++ [none]) ⟨0, execvp, wstatus⟩).events
        = [.fork, .execvp t (t :: ts)] ++ more ∧ ∀ e ∈ more, ∃ s, e = .stderr s := by
  have ht' : ¬ t = ['e', 'x', 'i', 't'] := ht
  have hargv : argv (some t :: (ts.map some ++ [none])) = t :: ts := by
    simp [argv, argv_map_some]
  have hparent : dash_execute ((t :: ts).map some ++ [none]) ⟨cpid, execvp, wstatus⟩
      = ⟨[.fork, .waitpid cpid], .ret 1⟩ := by
    simpa using dash_execute_parent t (ts.map some ++ [none]) ⟨cpid, execvp, wstatus⟩ ht hfork
  refine ⟨hparent, ?_, ?_⟩
  · rw [hparent]
    simp [List.count_cons]
  · cases execvp with
    | none => exact ⟨[], by simp [dash_execute, ht', hargv]⟩
    | some r =>
      by_cases hr : r < 0
      · exact ⟨[.stderr (MAGENTA ++ "bshell: Command not found!" ++ RESET ++ "\n")],
          by simp [dash_execute, ht', hr, hargv]⟩
      · exact ⟨[], by simp [dash_execute, ht', hr, hargv]⟩

theorem dash_execute_spawns_one_child_witness :
    "ls".toList ≠ "exit".toList ∧ (0 : Int) < 77 ∧
    dash_execute [some "ls".toList, some "-la".toList, none] ⟨77, none, 0⟩
      = ⟨[.fork, .waitpid 77], .ret 1⟩ ∧
    (dash_execute [some "ls".toList, some "-la".toList, none] ⟨77, none, 0⟩).events.count
      .fork = 1 ∧
    ∃ more,
      (dash_execute [some "ls".toList, some "-la".toList, none] ⟨0, none, 0⟩).events
        = [.fork, .execvp "ls".toList ["ls".toList, "-la".toList]] ++ more ∧
      ∀ e ∈ more, ∃ s, e = .stderr s :=
  ⟨by decide, by decide,
    dash_execute_spawns_one_child "ls".toList ["-la".toList] 77 none 0 (by decide) (by decide)⟩

/-- C7, counterexample: on a line of `2147482624 = INT_MAX + 1 - 1024`
characters `read_line` does not return the line: once the last character is
stored, `position` equals `buffsize = 2147482624` and
`buffsize += LINE_BUFFER_SIZE` leaves the range of `int`. -/
theorem read_line_long_line_overflow :
    (read_line (List.replicate 2147482624 'a')).outcome = .undefined := by
  have h := read_line_loop_overflow (List.replicate 2147482624 'a') [] [] LINE_BUFFER_SIZE
    (fun c hc => by rw [List.eq_of_mem_replicate hc]; decide) (by decide) (by decide)
    (by decide) (by rw [List.length_replicate]; decide)
  rw [List.append_nil] at h
  exact h

/-- C7, amended: for every input stream whose first line has fewer than
`2147482624` characters (`length + LINE_BUFFER_SIZE ≤ INT_MAX`), `read_line`
echoes a newline and returns exactly the characters before the first newline,
or all the characters when there is no newline, however many they are; the
newline is consumed and what follows it is left in the stream.  At the end of
the stream the line returned is empty. -/
theorem read_line_returns_line (stdin : List Char)
    (hlen : (stdin.takeWhile (fun c => c != '\n')).length + LINE_BUFFER_SIZE ≤ INT_MAX) :
    read_line stdin =
      ⟨[.stdout "\n"], .ret (stdin.takeWhile (fun c => c != '\n'),
        (stdin.dropWhile (fun c => c != '\n')).drop 1)⟩ ∧
    (stdin = [] → read_line stdin = ⟨[.stdout "\n"], .ret ([], [])⟩) := by
  have h := read_line_loop_eq stdin [] LINE_BUFFER_SIZE (by decide) (by simpa using hlen)
  have h' : read_line stdin =
      ⟨[.stdout "\n"], .ret (stdin.takeWhile (fun c => c != '\n'),
        (stdin.dropWhile (fun c => c != '\n')).drop 1)⟩ := by
    simpa [read_line] using h
  refine ⟨h', ?_⟩
  intro he
  subst he
  simpa using h'

theorem read_line_returns_line_witness :
    ((List.replicate 2000 'a' ++ "\nexit\n".toList).takeWhile (fun c => c != '\n')).length
      + LINE_BUFFER_SIZE ≤ INT_MAX ∧
    read_line (List.replicate 2000 'a' ++ "\nexit\n".toList) =
      ⟨[.stdout "\n"], .ret (List.replicate 2000 'a', "exit\n".toList)⟩ := by
  have hp : ∀ c ∈ List.replicate 2000 'a', (fun c => c != '\n') c = true := by
    intro c hc
    rw [List.eq_of_mem_replicate hc]
    decide
  have htake : (List.replicate 2000 'a' ++ "\nexit\n".toList).takeWhile (fun c => c != '\n')
      = List.replicate 2000 'a' := by
    rw [List.takeWhile_append_of_pos hp]
    exact List.append_nil _
  have hdrop : ((List.replicate 2000 'a' ++ "\nexit\n".toList).dropWhile
      (fun c => c != '\n')).drop 1 = "exit\n".toList := by
    rw [List.dropWhile_append_of_pos hp]
    rfl
  have hlen : ((List.replicate 2000 'a' ++ "\nexit\n".toList).takeWhile
      (fun c => c != '\n')).length + LINE_BUFFER_SIZE ≤ INT_MAX := by
    rw [htake, List.length_replicate]
    decide
  have h := (read_line_returns_line _ hlen).1
  rw [htake, hdrop] at h
  exact ⟨hlen, h⟩

/-- C8: on the empty input stream the program does not end with exit code 0:
after the prompt and the echoed newline, `read_line` returns the empty line,
`split_line` returns an array holding only the null pointer, and
`dash_execute` passes that null pointer to `strcmp`.  The same happens at the
end of a stream that holds one command without a newline, once the command
has been run. -/
theorem main_end_of_input_undefined (env : Nat → Env) :
    main [] env = ⟨[.stdout "> ", .stdout "\n"], .undefined⟩ ∧
    main "ls".toList (fun _ => ⟨77, none, 0⟩) =
      ⟨[.stdout "> ", .stdout "\n", .fork, .waitpid 77, .stdout "> ", .stdout "\n"],
        .undefined⟩ := by
  constructor
  · rfl
  · rfl

/-- C9: a blank line tokenizes to the empty sequence and the loop hands it to
`dash_execute` all the same, which reads the absent first token: the run is
undefined, whatever follows the blank line and whatever the operating system
answers. -/
theorem loop_blank_line_undefined (rest : List Char) (env : Nat → Env) :
    split_line [] = .ret [none] ∧
    dash_execute [none] (env 0) = ⟨[], .undefined⟩ ∧
    loop ('\n' :: rest) env = ⟨[.stdout "> ", .stdout "\n"], .undefined⟩ := by
  refine ⟨by decide, rfl, ?_⟩
  rfl

/-- C10, counterexample: in the stream `exit<TAB>now`, `exit`, the first line
that tokenizes to the single token `exit` is the second one and the line
before it has two tokens, yet with every fork succeeding the loop stops after
the first line: no child is run and the second line is left unread. -/
theorem main_stops_before_single_exit :
    split_line "exit\tnow".toList = .ret [some "exit".toList, some "now".toList, none] ∧
    split_line "exit".toList = .ret [some "exit".toList, none] ∧
    main "exit\tnow\nexit\n".toList (fun _ => ⟨77, none, 0⟩) =
      ⟨[.stdout "> ", .stdout "\n"], .ret (0, "exit\n".toList)⟩ := by
  refine ⟨by decide, by decide, ?_⟩
  rfl

/-- C10, amended: take a stream made of command lines `lines`, each closed by
a newline, then a line `last` whose first token is `exit`, closed by a newline
or by the end of the input.  When every line has fewer than `2147482624`
characters, every command line has at least one token, the first one not
being `exit`, and every `fork` succeeds, the program ends with exit code 0
right after `last`: what follows the newline of `last` is left unread, and
the events are, for each command line in input order, the prompt, the echoed
newline, one `fork` and the `waitpid` on that child, then the prompt and the
echoed newline of `last`; so exactly one child is run per command line. -/
theorem main_stops_at_exit (lines : List (List Char)) (last tail : List Char)
    (env : Nat → Env)
    (hlines : ∀ l ∈ lines, (∀ c ∈ l, c ≠ '\n') ∧ l.length + LINE_BUFFER_SIZE ≤ INT_MAX ∧
      ∃ t rest, split_line l = .ret (some t :: rest) ∧ t ≠ "exit".toList)
    (hnl : ∀ c ∈ last, c ≠ '\n') (hlen : last.length + LINE_BUFFER_SIZE ≤ INT_MAX)
    (hexit : ∃ rest, split_line last = .ret (some "exit".toList :: rest))
    (htail : ∀ c ∈ tail.head?, c = '\n')
    (hfork : ∀ j, 0 < (env j).fork) :
    main (lines.flatMap (fun l => l ++ ['\n']) ++ (last ++ tail)) env =
      ⟨(List.range lines.length).flatMap
          (fun k => [.stdout "> ", .stdout "\n", .fork, .waitpid (env k).fork])
        ++ [.stdout "> ", .stdout "\n"], .ret (0, tail.tail)⟩ ∧
    (main (lines.flatMap (fun l => l ++ ['\n']) ++ (last ++ tail)) env).events.count .fork
      = lines.length := by
  have hfuel : lines.length
      < (lines.flatMap (fun l => l ++ ['\n']) ++ (last ++ tail)).length + 1 := by
    have h := length_le_length_lines lines
    rw [List.length_append]
    omega
  have h := loop_from_commands lines last tail env _ 0 hfuel hlines hnl hlen hexit htail hfork
  have hmain : main (lines.flatMap (fun l => l ++ ['\n']) ++ (last ++ tail)) env =
      ⟨(List.range lines.length).flatMap
          (fun k => [.stdout "> ", .stdout "\n", .fork, .waitpid (env k).fork])
        ++ [.stdout "> ", .stdout "\n"], .ret (0, tail.tail)⟩ := by
    unfold main loop
    rw [h, List.range_eq_range']
    simp [Run.andThen, Run.pure]
  refine ⟨hmain, ?_⟩
  rw [hmain, List.range_eq_range']
  exact count_fork_commands env lines.length 0

theorem main_stops_at_exit_witness :
    main "ls\t-la\npwd\nexit\tnow\necho\thi\n".toList (fun k => ⟨100 + k, none, 0⟩) =
      ⟨[.stdout "> ", .stdout "\n", .fork, .waitpid 100,
        .stdout "> ", .stdout "\n", .fork, .waitpid 101,
        .stdout "> ", .stdout "\n"], .ret (0, "echo\thi\n".toList)⟩ ∧
    (main "ls\t-la\npwd\nexit\tnow\necho\thi\n".toList
      (fun k => ⟨100 + k, none, 0⟩)).events.count .fork = 2 :=
  main_stops_at_exit ["ls\t-la".toList, "pwd".toList] "exit\tnow".toList
    "\necho\thi\n".toList (fun k => ⟨100 + k, none, 0⟩)
    (by
      intro l hl
      rcases List.mem_cons.mp hl with rfl | hl
      · exact ⟨by decide, by decide, "ls".toList, [some "-la".toList, none], by decide, by decide⟩
      · rcases List.mem_cons.mp hl with rfl | hl
        · exact ⟨by decide, by decide, "pwd".toList, [none], by decide, by decide⟩
        · cases hl)
    (by decide) (by decide) ⟨["now".toList, none], by decide⟩ (by decide)
    (fun j => by show (0 : Int) < 100 + j; omega)

/-! ## A process that ends inside the executor -/

/-- When `dash_execute` ends the process with `exit(status)`, the iteration of
the loop that called it ends the same way: nothing of the loop runs after it. -/
theorem loop_from_exit (n i : Nat) (stdin : List Char) (env : Nat → Env)
    (lr : List Char × List Char) (args : List (Option (List Char))) (status : Int)
    (hread : (read_line stdin).outcome = .ret lr) (hsplit : split_line lr.1 = .ret args)
    (hexec : (dash_execute args (env i)).outcome = .exit status) :
    (loop_from (n + 1) i stdin env).outcome = .exit status := by
  simp [loop_from, Run.andThen, Run.emit, Run.lift, hread, hsplit, hexec]

/-! ## Facts about storing cells -/

/-- What a successful `store` did: the cell was inside the array, it was added
after the cells already there, and the capacity either stayed, the array not
being full yet, or grew by the increment, the array being full. -/
theorem store_ok {α : Type} (inc : Nat) (x : α) (cells : List α) (cap : Nat)
    (st : List α × Nat) (h : store inc x cells cap = .ok st) :
    cells.length < cap ∧ st.1 = cells ++ [x] ∧
    ((cap ≤ cells.length + 1 ∧ st.2 = cap + inc ∧ cap + inc ≤ INT_MAX) ∨
      (cells.length + 1 < cap ∧ st.2 = cap)) := by
  unfold store at h
  by_cases h1 : cells.length < cap
  · rw [if_pos h1] at h
    simp only [List.length_append, List.length_cons, List.length_nil] at h
    by_cases h2 : cells.length + 0 + 1 ≥ cap
    · rw [if_pos h2] at h
      by_cases h3 : cap + inc ≤ INT_MAX
      · rw [if_pos h3] at h
        injection h with h
        subst h
        exact ⟨h1, rfl, Or.inl ⟨by omega, rfl, h3⟩⟩
      · rw [if_neg h3] at h
        cases h
    · rw [if_neg h2] at h
      injection h with h
      subst h
      exact ⟨h1, rfl, Or.inr ⟨by omega, rfl⟩⟩
  · rw [if_neg h1] at h
    cases h

/-- A cell stored while `position < buffsize` is never outside the array. -/
theorem store_ne_out_of_bounds {α : Type} (inc : Nat) (x : α) (cells : List α) (cap : Nat)
    (h : cells.length < cap) : store inc x cells cap ≠ .out_of_bounds := by
  unfold store
  rw [if_pos h]
  dsimp only
  split_ifs <;> simp

/-- Starting with `position < buffsize` and a positive increment, storing
cells never writes outside the array; when it succeeds the array holds the old
cells followed by the new ones and `position < buffsize` holds again. -/
theorem store_all_inv {α : Type} (inc : Nat) (hinc : 0 < inc) (xs cells : List α) (cap : Nat)
    (h : cells.length < cap) :
    store_all inc xs cells cap ≠ .out_of_bounds ∧
    ∀ st, store_all inc xs cells cap = .ok st → st.1 = cells ++ xs ∧ st.1.length < st.2 := by
  induction xs generalizing cells cap with
  | nil =>
    refine ⟨by simp [store_all], ?_⟩
    intro st hst
    simp only [store_all, Stored.ok.injEq] at hst
    subst hst
    exact ⟨by simp, h⟩
  | cons x xs ih =>
    rw [store_all]
    cases hs : store inc x cells cap with
    | ok st1 =>
      obtain ⟨_, h1, h2⟩ := store_ok inc x cells cap st1 hs
      have hlen : st1.1.length = cells.length + 1 := by rw [h1]; simp
      have hinv : st1.1.length < st1.2 := by
        rcases h2 with ⟨_, h3, _⟩ | ⟨h3, h4⟩ <;> omega
      obtain ⟨ih1, ih2⟩ := ih st1.1 st1.2 hinv
      refine ⟨ih1, ?_⟩
      intro st hst
      obtain ⟨h5, h6⟩ := ih2 st hst
      exact ⟨by rw [h5, h1]; simp, h6⟩
    | out_of_bounds => exact absurd hs (store_ne_out_of_bounds inc x cells cap h)
    | overflow => simp

/-- Storing cells succeeds when the final number of cells leaves room for one
more increment within `int`. -/
theorem store_all_ok {α : Type} (inc : Nat) (hinc : 0 < inc) (xs cells : List α) (cap : Nat)
    (h : cells.length < cap) (hlen : cells.length + xs.length + inc ≤ INT_MAX) :
    ∃ st, store_all inc xs cells cap = .ok st := by
  induction xs generalizing cells cap with
  | nil => exact ⟨_, rfl⟩
  | cons x xs ih =>
    simp only [List.length_cons] at hlen
    have hstore : ∃ st1, store inc x cells cap = .ok st1 ∧ st1.1.length = cells.length + 1 ∧
        st1.1.length < st1.2 := by
      unfold store
      rw [if_pos h]
      simp only [List.length_append, List.length_cons, List.length_nil]
      by_cases h2 : cells.length + 0 + 1 ≥ cap
      · rw [if_pos h2, if_pos (by omega)]
        exact ⟨_, rfl, by simp, by simp; omega⟩
      · rw [if_neg h2]
        exact ⟨_, rfl, by simp, by simp; omega⟩
    obtain ⟨st1, hs, hl, hinv⟩ := hstore
    rw [store_all, hs]
    exact ih st1.1 st1.2 hinv (by omega)

/-- The capacity follows the number of cells: when it is
`inc * (position / inc + 1)` before cells are stored, it is so afterwards. -/
theorem store_all_capacity {α : Type} (inc : Nat)
    (harith : ∀ n, (inc * (n / inc + 1) ≤ n + 1 →
        inc * (n / inc + 1) + inc = inc * ((n + 1) / inc + 1)) ∧
      (n + 1 < inc * (n / inc + 1) → inc * (n / inc + 1) = inc * ((n + 1) / inc + 1)))
    (xs cells : List α) (cap : Nat) (hcap : cap = inc * (cells.length / inc + 1))
    (st : List α × Nat) (h : store_all inc xs cells cap = .ok st) :
    st.2 = inc * (st.1.length / inc + 1) := by
  induction xs generalizing cells cap with
  | nil =>
    simp only [store_all, Stored.ok.injEq] at h
    subst h
    exact hcap
  | cons x xs ih =>
    rw [store_all] at h
    cases hs : store inc x cells cap with
    | ok st1 =>
      rw [hs] at h
      obtain ⟨_, h1, h2⟩ := store_ok inc x cells cap st1 hs
      have hlen : st1.1.length = cells.length + 1 := by rw [h1]; simp
      refine ih st1.1 st1.2 ?_ h
      rw [hlen]
      rcases h2 with ⟨h3, h4, _⟩ | ⟨h3, h4⟩
      · rw [h4, hcap]
        exact (harith cells.length).1 (hcap ▸ h3)
      · rw [h4, hcap]
        exact (harith cells.length).2 (hcap ▸ h3)
    | out_of_bounds => rw [hs] at h; cases h
    | overflow => rw [hs] at h; cases h

/-- The arithmetic of the capacity for the increment `LINE_BUFFER_SIZE`. -/
theorem capacity_arith_line (n : Nat) :
    (LINE_BUFFER_SIZE * (n / LINE_BUFFER_SIZE + 1) ≤ n + 1 →
      LINE_BUFFER_SIZE * (n / LINE_BUFFER_SIZE + 1) + LINE_BUFFER_SIZE
        = LINE_BUFFER_SIZE * ((n + 1) / LINE_BUFFER_SIZE + 1)) ∧
    (n + 1 < LINE_BUFFER_SIZE * (n / LINE_BUFFER_SIZE + 1) →
      LINE_BUFFER_SIZE * (n / LINE_BUFFER_SIZE + 1)
        = LINE_BUFFER_SIZE * ((n + 1) / LINE_BUFFER_SIZE + 1)) := by
  simp only [LINE_BUFFER_SIZE]
  constructor <;> intro h <;> omega

/-- The arithmetic of the capacity for the increment `TOKEN_BUFFER_SIZE`. -/
theorem capacity_arith_token (n : Nat) :
    (TOKEN_BUFFER_SIZE * (n / TOKEN_BUFFER_SIZE + 1) ≤ n + 1 →
      TOKEN_BUFFER_SIZE * (n / TOKEN_BUFFER_SIZE + 1) + TOKEN_BUFFER_SIZE
        = TOKEN_BUFFER_SIZE * ((n + 1) / TOKEN_BUFFER_SIZE + 1)) ∧
    (n + 1 < TOKEN_BUFFER_SIZE * (n / TOKEN_BUFFER_SIZE + 1) →
      TOKEN_BUFFER_SIZE * (n / TOKEN_BUFFER_SIZE + 1)
        = TOKEN_BUFFER_SIZE * ((n + 1) / TOKEN_BUFFER_SIZE + 1)) := by
  simp only [TOKEN_BUFFER_SIZE]
  constructor <;> intro h <;> omega

/-! ## The loops, seen as cells stored one at a time -/

/-- One turn of the reading loop on a character that is not a newline is one
`store` into the buffer. -/
theorem read_line_loop_store (c : Char) (stdin buffer : List Char) (buffsize : Nat)
    (hc : c ≠ '\n') :
    read_line_loop (c :: stdin) buffer buffsize =
      match store LINE_BUFFER_SIZE c buffer buffsize with
      | .ok st => read_line_loop stdin st.1 st.2
      | .out_of_bounds => ⟨[], .undefined⟩
      | .overflow => ⟨[], .undefined⟩ := by
  rw [read_line_loop, if_neg hc]
  unfold store
  dsimp only
  split_ifs <;> rfl

/-- The reading loop on characters without newline followed by `tail` stores
the characters one by one and goes on with `tail`. -/
theorem read_line_loop_store_all (pre tail buffer : List Char) (buffsize : Nat)
    (hnl : ∀ c ∈ pre, c ≠ '\n') :
    read_line_loop (pre ++ tail) buffer buffsize =
      match store_all LINE_BUFFER_SIZE pre buffer buffsize with
      | .ok st => read_line_loop tail st.1 st.2
      | .out_of_bounds => ⟨[], .undefined⟩
      | .overflow => ⟨[], .undefined⟩ := by
  induction pre generalizing buffer buffsize with
  | nil => rfl
  | cons c pre ih =>
    have hc : c ≠ '\n' := hnl c (List.mem_cons_self _ _)
    have hnl' : ∀ d ∈ pre, d ≠ '\n' := fun d hd => hnl d (List.mem_cons_of_mem _ hd)
    rw [List.cons_append, read_line_loop_store c _ _ _ hc, store_all]
    cases hs : store LINE_BUFFER_SIZE c buffer buffsize with
    | ok st => exact ih st.1 st.2 hnl'
    | out_of_bounds => rfl
    | overflow => rfl

/-- One turn of the tokenizing loop is one `store` into the token array. -/
theorem split_line_loop_store (n : Nat) (token saved : List Char)
    (tokens : List (List Char)) (buffsize : Nat) :
    split_line_loop (n + 1) (some (token, saved)) tokens buffsize =
      match store TOKEN_BUFFER_SIZE token tokens buffsize with
      | .ok st => split_line_loop n (strtok saved TOK_DELIM) st.1 st.2
      | .out_of_bounds => .undefined
      | .overflow => .undefined := by
  rw [split_line_loop]
  unfold store
  dsimp only
  split_ifs <;> rfl

/-- The tokenizing loop, given enough steps, stores the tokens that `strtok`
finds one by one and then writes the closing null pointer. -/
theorem split_line_loop_store_all (n : Nat) (token : Option (List Char × List Char))
    (tokens : List (List Char)) (buffsize : Nat) (hn : 0 < n)
    (h : ∀ t s, token = some (t, s) → s.length + 1 < n) :
    split_line_loop n token tokens buffsize =
      match store_all TOKEN_BUFFER_SIZE (strtok_all n token) tokens buffsize with
      | .ok st => if st.1.length < st.2 then .ret (st.1.map some ++ [none]) else .undefined
      | .out_of_bounds => .undefined
      | .overflow => .undefined := by
  induction n generalizing token tokens buffsize with
  | zero => omega
  | succ n ih =>
    cases token with
    | none => rfl
    | some ts =>
      obtain ⟨t, s⟩ := ts
      have hs : s.length + 1 < n + 1 := h t s rfl
      rw [split_line_loop_store, strtok_all, store_all]
      cases hst : store TOKEN_BUFFER_SIZE t tokens buffsize with
      | ok st =>
        refine ih _ st.1 st.2 (by omega) ?_
        intro t' s' hts
        have := strtok_saved_lt s t' s' hts
        omega
      | out_of_bounds => rfl
      | overflow => rfl

/-- The function `split_line` stores the tokens of the line one by one and
then writes the closing null pointer. -/
theorem split_line_eq (line : List Char) :
    split_line line =
      match split_line_stored (tokens_of line) with
      | .ok st => if st.1.length < st.2 then .ret (st.1.map some ++ [none]) else .undefined
      | .out_of_bounds => .undefined
      | .overflow => .undefined := by
  refine split_line_loop_store_all _ _ _ _ (by omega) ?_
  intro t s hts
  have := strtok_saved_lt line t s hts
  omega

/-- When `split_line` returns, the array holds the tokens of the line followed
by the null pointer. -/
theorem split_line_ret (line : List Char) (args : List (Option (List Char)))
    (h : split_line line = .ret args) : args = (tokens_of line).map some ++ [none] := by
  rw [split_line_eq] at h
  cases hst : split_line_stored (tokens_of line) with
  | ok st =>
    rw [hst] at h
    have hinv := (store_all_inv TOKEN_BUFFER_SIZE (by decide) (tokens_of line) []
      TOKEN_BUFFER_SIZE (by decide)).2 st hst
    simp only [List.nil_append] at hinv
    simp only [hinv.2, if_true, Outcome.ret.injEq] at h
    rw [← h, hinv.1]
  | out_of_bounds => rw [hst] at h; cases h
  | overflow => rw [hst] at h; cases h

/-- The function `split_line` returns when the number of tokens leaves room
for one more increment of the capacity within `int`. -/
theorem split_line_of_few_tokens (line : List Char)
    (hlen : (tokens_of line).length + TOKEN_BUFFER_SIZE ≤ INT_MAX) :
    split_line line = .ret ((tokens_of line).map some ++ [none]) := by
  obtain ⟨st, hst⟩ := store_all_ok TOKEN_BUFFER_SIZE (by decide) (tokens_of line) []
    TOKEN_BUFFER_SIZE (by decide) (by simpa using hlen)
  have hinv := (store_all_inv TOKEN_BUFFER_SIZE (by decide) (tokens_of line) []
    TOKEN_BUFFER_SIZE (by decide)).2 st hst
  simp only [List.nil_append] at hinv
  have hst' : split_line_stored (tokens_of line) = .ok st := hst
  rw [split_line_eq, hst']
  simp only [hinv.2, if_true]
  rw [hinv.1]

/-- Every token costs at least one character: `strtok` finds at most as many
tokens as the string has characters. -/
theorem strtok_all_length_le (n : Nat) (s : List Char) :
    (strtok_all n (strtok s TOK_DELIM)).length ≤ s.length := by
  induction n generalizing s with
  | zero => simp [strtok_all]
  | succ n ih =>
    cases hs : strtok s TOK_DELIM with
    | none => simp [strtok_all]
    | some ts =>
      obtain ⟨t, saved⟩ := ts
      have h1 := strtok_saved_lt s t saved hs
      have h2 := ih saved
      simp only [strtok_all, List.length_cons]
      omega

/-! ## What `strtok` finds -/

/-- Where a token found by `strtok` lies: the string is a run of delimiters,
then the token, non-empty and free of delimiters and of NUL, then either
nothing, or a delimiter after which the next call resumes, or a NUL at which
the next call resumes. -/
theorem strtok_some (s token saved : List Char)
    (h : strtok s TOK_DELIM = some (token, saved)) :
    token ≠ [] ∧ (∀ c ∈ token, c ∉ TOK_DELIM ∧ c ≠ '\x00') ∧
    ∃ g, (∀ c ∈ g, c ∈ TOK_DELIM) ∧
      ((saved = [] ∧ s = g ++ token) ∨
        (∃ d, d ∈ TOK_DELIM ∧ s = g ++ token ++ d :: saved) ∨
        (∃ rest, saved = '\x00' :: rest ∧ s = g ++ token ++ saved)) := by
  have hsplit := List.takeWhile_append_dropWhile (fun c => decide (c ∈ TOK_DELIM)) s
  have hg : ∀ c ∈ s.takeWhile (fun c => decide (c ∈ TOK_DELIM)), c ∈ TOK_DELIM := by
    intro c hc
    simpa using List.mem_takeWhile_imp hc
  have hhead := List.head?_dropWhile_not (fun c => decide (c ∈ TOK_DELIM)) s
  unfold strtok at h
  cases hd : s.dropWhile (fun c => decide (c ∈ TOK_DELIM)) with
  | nil => simp [hd] at h
  | cons c t =>
    rw [hd] at h hsplit hhead
    have hcd : c ∉ TOK_DELIM := by simpa using hhead
    by_cases hc0 : c = '\x00'
    · simp [hc0] at h
    · simp only [hc0, if_false] at h
      have hsplit2 := List.takeWhile_append_dropWhile
        (fun d => !(decide (d ∈ TOK_DELIM)) && !(d == '\x00')) (c :: t)
      have hhead2 := List.head?_dropWhile_not
        (fun d => !(decide (d ∈ TOK_DELIM)) && !(d == '\x00')) (c :: t)
      have hall : ∀ d ∈ (c :: t).takeWhile
          (fun d => !(decide (d ∈ TOK_DELIM)) && !(d == '\x00')),
          d ∉ TOK_DELIM ∧ d ≠ '\x00' := by
        intro d hd
        simpa using List.mem_takeWhile_imp hd
      have hne : (c :: t).takeWhile
          (fun d => !(decide (d ∈ TOK_DELIM)) && !(d == '\x00')) ≠ [] := by
        rw [List.takeWhile_cons]
        simp [hcd, hc0]
      have hdrop : (c :: t).drop ((c :: t).takeWhile
          (fun d => !(decide (d ∈ TOK_DELIM)) && !(d == '\x00'))).length
          = (c :: t).dropWhile (fun d => !(decide (d ∈ TOK_DELIM)) && !(d == '\x00')) := by
        have h3 := List.drop_left ((c :: t).takeWhile
          (fun d => !(decide (d ∈ TOK_DELIM)) && !(d == '\x00')))
          ((c :: t).dropWhile (fun d => !(decide (d ∈ TOK_DELIM)) && !(d == '\x00')))
        rwa [hsplit2] at h3
      rw [hdrop] at h
      cases hr : (c :: t).dropWhile
          (fun d => !(decide (d ∈ TOK_DELIM)) && !(d == '\x00')) with
      | nil =>
        rw [hr] at h hsplit2
        simp only [Option.some.injEq, Prod.mk.injEq] at h
        obtain ⟨h1, h2⟩ := h
        rw [List.append_nil] at hsplit2
        rw [← h1]
        refine ⟨hne, hall, _, hg, Or.inl ⟨h2.symm, ?_⟩⟩
        rw [hsplit2, hsplit]
      | cons d rest =>
        rw [hr] at h hsplit2 hhead2
        by_cases hd0 : d = '\x00'
        · subst hd0
          simp only [if_true, Option.some.injEq, Prod.mk.injEq] at h
          obtain ⟨h1, h2⟩ := h
          rw [← h1]
          refine ⟨hne, hall, _, hg, Or.inr (Or.inr ⟨rest, h2.symm, ?_⟩)⟩
          rw [← h2, List.append_assoc, hsplit2, hsplit]
        · simp only [hd0, if_false, Option.some.injEq, Prod.mk.injEq] at h
          obtain ⟨h1, h2⟩ := h
          have hdd : d ∈ TOK_DELIM := by
            have h3 : (!(decide (d ∈ TOK_DELIM)) && !(d == '\x00')) = false := hhead2
            simpa [hd0] using h3
          rw [← h1]
          refine ⟨hne, hall, _, hg, Or.inr (Or.inl ⟨d, hdd, ?_⟩)⟩
          rw [← h2, List.append_assoc, hsplit2, hsplit]

/-- When `strtok` finds no token in a string without NUL, the string is made
of delimiters. -/
theorem strtok_none (s : List Char) (h0 : '\x00' ∉ s) (h : strtok s TOK_DELIM = none) :
    ∀ c ∈ s, c ∈ TOK_DELIM := by
  have hsub : ∀ c ∈ s.dropWhile (fun c => decide (c ∈ TOK_DELIM)), c ∈ s :=
    fun c hc => (List.dropWhile_suffix _).subset hc
  unfold strtok at h
  cases hd : s.dropWhile (fun c => decide (c ∈ TOK_DELIM)) with
  | nil =>
    intro c hc
    simpa using (List.dropWhile_eq_nil_iff.mp hd) c hc
  | cons c t =>
    rw [hd] at h hsub
    have hc0 : c ≠ '\x00' := fun e => h0 (e ▸ hsub c (List.mem_cons_self _ _))
    simp only [hc0, if_false] at h
    split at h <;> (try split at h) <;> simp at h

/-- Every token that the calls of `strtok` find is non-empty and holds neither
a delimiter nor a NUL. -/
theorem strtok_all_token (n : Nat) (s : List Char) :
    ∀ t ∈ strtok_all n (strtok s TOK_DELIM),
      t ≠ [] ∧ ∀ c ∈ t, c ∉ TOK_DELIM ∧ c ≠ '\x00' := by
  induction n generalizing s with
  | zero => simp [strtok_all]
  | succ n ih =>
    cases hs : strtok s TOK_DELIM with
    | none => simp [strtok_all]
    | some ts =>
      obtain ⟨t, saved⟩ := ts
      obtain ⟨h1, h2, _⟩ := strtok_some s t saved hs
      intro t' ht'
      simp only [strtok_all, List.mem_cons] at ht'
      rcases ht' with rfl | ht'
      · exact ⟨h1, h2⟩
      · exact ih saved t' ht'

/-! ## Tokens and gaps -/

/-- Once `strtok` has found no token, it finds none. -/
theorem strtok_all_none (n : Nat) : strtok_all n none = [] := by
  cases n <;> rfl

/-- A delimiter put in front of the first gap comes in front of the string. -/
theorem weave_cons_gap (d : Char) (g : List Char) (gaps tokens : List (List Char)) :
    weave ((d :: g) :: gaps) tokens = d :: weave (g :: gaps) tokens := by
  cases tokens <;> simp [weave]

/-- A string without NUL is laid out as the tokens that `strtok` finds in it,
in the order in which it finds them, with gaps made of delimiters before,
between and after them. -/
theorem strtok_all_weave (n : Nat) (s : List Char) (h0 : '\x00' ∉ s) (hn : s.length < n) :
    ∃ gaps, gaps.length = (strtok_all n (strtok s TOK_DELIM)).length + 1 ∧
      (∀ g ∈ gaps, ∀ c ∈ g, c ∈ TOK_DELIM) ∧
      weave gaps (strtok_all n (strtok s TOK_DELIM)) = s := by
  induction n generalizing s with
  | zero => omega
  | succ n ih =>
    cases hs : strtok s TOK_DELIM with
    | none =>
      refine ⟨[s], by simp [strtok_all], ?_, by simp [strtok_all, weave]⟩
      intro g hg
      rw [List.mem_singleton] at hg
      subst hg
      exact strtok_none g h0 hs
    | some ts =>
      obtain ⟨t, saved⟩ := ts
      obtain ⟨_, _, g, hg, hcase⟩ := strtok_some s t saved hs
      rcases hcase with ⟨hsaved, hseq⟩ | ⟨d, hd, hseq⟩ | ⟨rest, hsaved, hseq⟩
      · subst hsaved
        have hnil : strtok [] TOK_DELIM = none := by decide
        refine ⟨[g, []], by simp [strtok_all, hnil, strtok_all_none], ?_, ?_⟩
        · intro g' hg'
          simp only [List.mem_cons, List.mem_singleton, List.not_mem_nil, or_false] at hg'
          rcases hg' with rfl | rfl
          · exact hg
          · simp
        · simp [strtok_all, hnil, strtok_all_none, weave, hseq]
      · have h0' : '\x00' ∉ saved := by
          intro hmem
          apply h0
          rw [hseq]
          simp [hmem]
        have hlen : saved.length < n := by
          have := strtok_saved_lt s t saved hs
          omega
        obtain ⟨gaps, hgl, hgd, hgw⟩ := ih saved h0' hlen
        cases gaps with
        | nil => simp at hgl
        | cons g1 gs =>
          refine ⟨g :: (d :: g1) :: gs, ?_, ?_, ?_⟩
          · simp only [strtok_all, List.length_cons] at hgl ⊢
            omega
          · intro g' hg'
            simp only [List.mem_cons] at hg'
            rcases hg' with rfl | rfl | hg'
            · exact hg
            · intro c hc
              rcases List.mem_cons.mp hc with rfl | hc
              · exact hd
              · exact hgd g1 (List.mem_cons_self _ _) c hc
            · exact hgd g' (List.mem_cons_of_mem _ hg')
          · simp only [strtok_all, weave]
            rw [weave_cons_gap, hgw, hseq]
      · exfalso
        apply h0
        rw [hseq, hsaved]
        simp

/-- In a string laid out as gaps and tokens after a part `pre`, every token
is the substring found at its offset, a token ends before the later ones
start, and a character after `pre` that lies in no token lies in a gap. -/
theorem weave_located (tokens gaps : List (List Char)) (pre : List Char)
    (hlen : gaps.length = tokens.length + 1) :
    (offsets pre.length gaps tokens).length = tokens.length ∧
    (∀ a ∈ tokens.zip (offsets pre.length gaps tokens),
      pre.length ≤ a.2 ∧
      ((pre ++ weave gaps tokens).drop a.2).take a.1.length = a.1) ∧
    (tokens.zip (offsets pre.length gaps tokens)).Pairwise
      (fun a b => a.2 + a.1.length ≤ b.2) ∧
    (∀ p c, pre.length ≤ p → (pre ++ weave gaps tokens)[p]? = some c →
      (∀ a ∈ tokens.zip (offsets pre.length gaps tokens),
        ¬ (a.2 ≤ p ∧ p < a.2 + a.1.length)) →
      ∃ g ∈ gaps, c ∈ g) := by
  induction tokens generalizing gaps pre with
  | nil =>
    obtain ⟨g, rfl⟩ : ∃ g, gaps = [g] := by
      cases gaps with
      | nil => simp at hlen
      | cons g gs =>
        cases gs with
        | nil => exact ⟨g, rfl⟩
        | cons _ _ => simp at hlen
    refine ⟨by simp [offsets], by simp [offsets], by simp [offsets], ?_⟩
    intro p c hp hpc _
    rw [weave, List.getElem?_append_right hp] at hpc
    exact ⟨g, List.mem_singleton.mpr rfl, List.mem_iff_getElem?.mpr ⟨_, hpc⟩⟩
  | cons t ts ih =>
    cases gaps with
    | nil => simp at hlen
    | cons g gs =>
      have hlen' : gs.length = ts.length + 1 := by simpa using hlen
      have hpre : (pre ++ g ++ t).length = pre.length + g.length + t.length := by
        rw [List.length_append, List.length_append]
      have hline : pre ++ weave (g :: gs) (t :: ts) = (pre ++ g ++ t) ++ weave gs ts := by
        simp [weave, List.append_assoc]
      obtain ⟨ih1, ih2, ih3, ih4⟩ := ih gs (pre ++ g ++ t) hlen'
      rw [hpre] at ih1 ih2 ih3 ih4
      rw [hline]
      simp only [offsets, List.zip_cons_cons, List.length_cons, List.mem_cons,
        List.pairwise_cons]
      refine ⟨by rw [ih1], ?_, ⟨?_, ih3⟩, ?_⟩
      · intro a ha
        rcases ha with rfl | ha
        · refine ⟨by simp, ?_⟩
          have h1 : (pre ++ g ++ t ++ weave gs ts) = (pre ++ g) ++ (t ++ weave gs ts) := by
            simp [List.append_assoc]
          have h2 : pre.length + g.length = (pre ++ g).length := by simp
          simp only []
          rw [h1, h2, List.drop_left, List.take_left]
        · obtain ⟨h1, h2⟩ := ih2 a ha
          exact ⟨by omega, h2⟩
      · intro b hb
        exact (ih2 b hb).1
      · intro p c hp hpc hnot
        by_cases hp1 : p < pre.length + g.length
        · refine ⟨g, Or.inl rfl, ?_⟩
          have h1 : (pre ++ g ++ t ++ weave gs ts) = pre ++ (g ++ (t ++ weave gs ts)) := by
            simp [List.append_assoc]
          rw [h1, List.getElem?_append_right hp,
            List.getElem?_append_left (by omega)] at hpc
          exact List.mem_iff_getElem?.mpr ⟨_, hpc⟩
        · by_cases hp2 : p < pre.length + g.length + t.length
          · exact absurd ⟨by simp only []; omega, by simp only []; omega⟩
              (hnot (t, pre.length + g.length) (Or.inl rfl))
          · obtain ⟨g', hg', hc⟩ := ih4 p c (by omega) hpc
              (fun a ha => hnot a (Or.inr ha))
            exact ⟨g', Or.inr hg', hc⟩

/-! ## Tokenizing tokens again -/

/-- In a string that starts with a token followed by a tab, `strtok` finds
that token and resumes after the tab. -/
theorem strtok_token_tab (t rest : List Char) (hne : t ≠ [])
    (h : ∀ c ∈ t, c ∉ TOK_DELIM ∧ c ≠ '\x00') :
    strtok (t ++ '\t' :: rest) TOK_DELIM = some (t, rest) := by
  obtain ⟨c, t', rfl⟩ := List.exists_cons_of_ne_nil hne
  have hc : c ∉ TOK_DELIM := (h c (List.mem_cons_self _ _)).1
  have hc0 : c ≠ '\x00' := (h c (List.mem_cons_self _ _)).2
  have hp : ∀ d ∈ c :: t',
      (fun d => !(decide (d ∈ TOK_DELIM)) && !(d == '\x00')) d = true := by
    intro d hd
    simp [(h d hd).1, (h d hd).2]
  have htake : (c :: t' ++ '\t' :: rest).takeWhile
      (fun d => !(decide (d ∈ TOK_DELIM)) && !(d == '\x00')) = c :: t' := by
    rw [List.takeWhile_append_of_pos hp]
    simp [List.takeWhile_cons, TOK_DELIM]
  unfold strtok
  rw [List.cons_append, List.dropWhile_cons_of_neg (by simpa using hc)]
  simp only [hc0, if_false]
  rw [← List.cons_append, htake, List.drop_left]
  simp

/-- Tokens joined by single tabs are found again, one by one, by `strtok`. -/
theorem strtok_all_intercalate (tokens : List (List Char))
    (h : ∀ t ∈ tokens, t ≠ [] ∧ ∀ c ∈ t, c ∉ TOK_DELIM ∧ c ≠ '\x00')
    (n : Nat) (hn : (List.intercalate ['\t'] tokens).length < n) :
    strtok_all n (strtok (List.intercalate ['\t'] tokens) TOK_DELIM) = tokens := by
  induction tokens generalizing n with
  | nil =>
    have hnil : strtok [] TOK_DELIM = none := by decide
    simp [List.intercalate, hnil, strtok_all_none]
  | cons t ts ih =>
    obtain ⟨m, rfl⟩ : ∃ m, n = m + 1 := ⟨n - 1, by omega⟩
    obtain ⟨hne, ht⟩ := h t (List.mem_cons_self _ _)
    have hts : ∀ t' ∈ ts, t' ≠ [] ∧ ∀ c ∈ t', c ∉ TOK_DELIM ∧ c ≠ '\x00' :=
      fun t' ht' => h t' (List.mem_cons_of_mem _ ht')
    cases ts with
    | nil =>
      obtain ⟨c, t', rfl⟩ := List.exists_cons_of_ne_nil hne
      have hone : List.intercalate ['\t'] [c :: t'] = c :: t' := by
        simp [List.intercalate]
      have hnil : strtok [] TOK_DELIM = none := by decide
      have h0 : '\x00' ∉ c :: t' := fun hmem => (ht _ hmem).2 rfl
      rw [hone, strtok_of_no_delim c t' h0 (fun d hd => (ht d hd).1), strtok_all, hnil,
        strtok_all_none]
    | cons t2 ts =>
      have hjoin : List.intercalate ['\t'] (t :: t2 :: ts)
          = t ++ '\t' :: List.intercalate ['\t'] (t2 :: ts) := by
        simp [List.intercalate]
      rw [hjoin] at hn ⊢
      rw [strtok_token_tab t _ hne ht, strtok_all]
      rw [ih hts m (by simp only [List.length_append, List.length_cons] at hn; omega)]

/-- The function `split_line` returns on every line that leaves room for one
more increment of the capacity within `int`. -/
theorem split_line_of_short_line (line : List Char)
    (hlen : line.length + TOKEN_BUFFER_SIZE ≤ INT_MAX) :
    split_line line = .ret ((tokens_of line).map some ++ [none]) := by
  have h := strtok_all_length_le (line.length + 1) line
  exact split_line_of_few_tokens line (by unfold tokens_of; omega)

/-- A string in the array that `split_line` returns is a token of the line. -/
theorem mem_tokens_of_mem_args (line : List Char) (args : List (Option (List Char)))
    (h : split_line line = .ret args) (t : List Char) (ht : some t ∈ args) :
    t ∈ tokens_of line := by
  rw [split_line_ret line args h] at ht
  simpa using ht

/-- Storing one more cell after others is a `store` on the state they left. -/
theorem store_all_append_singleton {α : Type} (inc : Nat) (xs : List α) (x : α)
    (cells : List α) (cap : Nat) :
    store_all inc (xs ++ [x]) cells cap =
      match store_all inc xs cells cap with
      | .ok st => store inc x st.1 st.2
      | .out_of_bounds => .out_of_bounds
      | .overflow => .overflow := by
  induction xs generalizing cells cap with
  | nil =>
    simp only [List.nil_append, store_all]
    cases store inc x cells cap <;> rfl
  | cons y ys ih =>
    simp only [List.cons_append, store_all]
    cases store inc y cells cap with
    | ok st => exact ih st.1 st.2
    | out_of_bounds => rfl
    | overflow => rfl

/-- The function `read_line` on characters without newline followed by `tail`
stores the characters one by one and goes on with `tail`. -/
theorem read_line_eq_stored (chars tail : List Char) (hnl : ∀ c ∈ chars, c ≠ '\n') :
    read_line (chars ++ tail) =
      match read_line_stored chars with
      | .ok st => read_line_loop tail st.1 st.2
      | .out_of_bounds => ⟨[], .undefined⟩
      | .overflow => ⟨[], .undefined⟩ :=
  read_line_loop_store_all chars tail [] LINE_BUFFER_SIZE hnl

/-- A line that `read_line` returns leaves room for one increment of the
capacity within `int`: on longer lines the capacity overflows. -/
theorem read_line_ret_length (stdin : List Char) (lr : List Char × List Char)
    (h : (read_line stdin).outcome = .ret lr) : lr.1.length + LINE_BUFFER_SIZE ≤ INT_MAX := by
  by_cases hlen : (stdin.takeWhile (fun c => c != '\n')).length + LINE_BUFFER_SIZE ≤ INT_MAX
  · have h1 := read_line_loop_eq stdin [] LINE_BUFFER_SIZE (by decide)
      (by simpa using hlen)
    have h2 : (read_line stdin).outcome = (read_line_loop stdin [] LINE_BUFFER_SIZE).outcome :=
      rfl
    rw [h2, h1] at h
    simp only [List.nil_append, Outcome.ret.injEq] at h
    rw [← h]
    exact hlen
  · exfalso
    have hL : LINE_BUFFER_SIZE = 1024 := rfl
    have hI : INT_MAX = 2147483647 := rfl
    have hsplit := List.takeWhile_append_dropWhile (fun c => c != '\n') stdin
    have htake := List.take_append_drop 2147482624 (stdin.takeWhile (fun c => c != '\n'))
    have hpre : ((stdin.takeWhile (fun c => c != '\n')).take 2147482624).length
        = 2147482624 := by
      rw [List.length_take]
      omega
    have hnl : ∀ c ∈ (stdin.takeWhile (fun c => c != '\n')).take 2147482624, c ≠ '\n' := by
      intro c hc
      simpa using List.mem_takeWhile_imp (List.mem_of_mem_take hc)
    have hov := read_line_loop_overflow
      ((stdin.takeWhile (fun c => c != '\n')).take 2147482624)
      ((stdin.takeWhile (fun c => c != '\n')).drop 2147482624
        ++ stdin.dropWhile (fun c => c != '\n'))
      [] LINE_BUFFER_SIZE hnl (by decide) (by decide) (by decide)
      (by rw [hpre]; decide)
    rw [← List.append_assoc, htake, hsplit] at hov
    have h2 : (read_line stdin).outcome = (read_line_loop stdin [] LINE_BUFFER_SIZE).outcome :=
      rfl
    rw [h2, hov] at h
    cases h

/-- The function `split_line` returns on every line that `read_line` returns. -/
theorem split_line_of_read_line (stdin : List Char) (lr : List Char × List Char)
    (h : (read_line stdin).outcome = .ret lr) :
    split_line lr.1 = .ret ((tokens_of lr.1).map some ++ [none]) := by
  have h1 := read_line_ret_length stdin lr h
  have hL : LINE_BUFFER_SIZE = 1024 := rfl
  have hT : TOKEN_BUFFER_SIZE = 256 := rfl
  exact split_line_of_short_line lr.1 (by omega)

/-! ## The claims, continued -/

/-- C11: `split_line` returns on every line that fits in an `int` with room
for one increment, and no token of the array it returns is empty, whatever the
delimiters at the start, at the end or in a row inside the line. -/
theorem split_line_no_empty_token (line : List Char) :
    (line.length + TOKEN_BUFFER_SIZE ≤ INT_MAX → ∃ args, split_line line = .ret args) ∧
    ∀ args, split_line line = .ret args → ∀ t, some t ∈ args → t ≠ [] := by
  refine ⟨fun hlen => ⟨_, split_line_of_short_line line hlen⟩, ?_⟩
  intro args h t ht
  exact (strtok_all_token _ line t (mem_tokens_of_mem_args line args h t ht)).1

theorem split_line_no_empty_token_witness :
    split_line "\t\tls\t\r\n-la\t".toList = .ret [some "ls".toList, some "-la".toList, none] ∧
    ∀ t, some t ∈ [some "ls".toList, some "-la".toList, none] → t ≠ [] :=
  ⟨by decide, (split_line_no_empty_token "\t\tls\t\r\n-la\t".toList).2 _ (by decide)⟩

/-- C13: for a first token other than `exit`, when `fork` fails (returns a
negative value) `dash_execute` writes its message and ends the process with
`exit(EXIT_FAILURE)`, a non-zero status: it does not return, whatever would
follow it is not run, and the loop that called it ends with that status. -/
theorem dash_execute_fork_failure (t : List Char) (rest : List (Option (List Char)))
    (env : Nat → Env) (i : Nat) (ht : t ≠ "exit".toList) (hfork : (env i).fork < 0) :
    dash_execute (some t :: rest) (env i) =
      ⟨[.fork, .stderr (MAGENTA ++ "bshell: Error Forking!" ++ RESET ++ "\n")],
        .exit EXIT_FAILURE⟩ ∧
    EXIT_FAILURE ≠ 0 ∧
    (∀ (β : Type) (f : Int → Run β),
      ((dash_execute (some t :: rest) (env i)).andThen f).outcome = .exit EXIT_FAILURE) ∧
    (∀ n stdin lr, (read_line stdin).outcome = .ret lr →
      split_line lr.1 = .ret (some t :: rest) →
      (loop_from (n + 1) i stdin env).outcome = .exit EXIT_FAILURE) := by
  have ht' : ¬ t = ['e', 'x', 'i', 't'] := ht
  have h0 : (env i).fork ≠ 0 := by omega
  have hrun : dash_execute (some t :: rest) (env i) =
      ⟨[.fork, .stderr (MAGENTA ++ "bshell: Error Forking!" ++ RESET ++ "\n")],
        .exit EXIT_FAILURE⟩ := by
    simp [dash_execute, ht', h0, hfork]
  refine ⟨hrun, by decide, ?_, ?_⟩
  · intro β f
    rw [hrun]
    rfl
  · intro n stdin lr hread hsplit
    exact loop_from_exit n i stdin env lr _ _ hread hsplit (by rw [hrun])

theorem dash_execute_fork_failure_witness :
    (dash_execute [some "ls".toList, none] ⟨-1, none, 0⟩).outcome = .exit 1 ∧
    (loop "ls\necho\n".toList (fun _ => ⟨-1, none, 0⟩)).outcome = .exit 1 :=
  ⟨by decide,
    (dash_execute_fork_failure "ls".toList [none] (fun _ => ⟨-1, none, 0⟩) 0
      (by decide) (by decide)).2.2.2 _ "ls\necho\n".toList ("ls".toList, "echo\n".toList)
      (by decide) (by decide)⟩

/-- C14: in the child (where `fork` returned 0), for a first token other than
`exit`, when `execvp` fails (returns a negative value) `dash_execute` writes
its message and ends the child with `exit(EXIT_FAILURE)`, a non-zero status:
it does not return, and the copy of the loop that the child inherited runs no
further. -/
theorem dash_execute_child_failure (t : List Char) (rest : List (Option (List Char)))
    (env : Nat → Env) (i : Nat) (r : Int) (ht : t ≠ "exit".toList)
    (hfork : (env i).fork = 0) (hexec : (env i).execvp = some r) (hr : r < 0) :
    dash_execute (some t :: rest) (env i) =
      ⟨[.fork, .execvp t (argv (some t :: rest)),
        .stderr (MAGENTA ++ "bshell: Command not found!" ++ RESET ++ "\n")],
        .exit EXIT_FAILURE⟩ ∧
    EXIT_FAILURE ≠ 0 ∧
    (∀ (β : Type) (f : Int → Run β),
      ((dash_execute (some t :: rest) (env i)).andThen f).outcome = .exit EXIT_FAILURE) ∧
    (∀ n stdin lr, (read_line stdin).outcome = .ret lr →
      split_line lr.1 = .ret (some t :: rest) →
      (loop_from (n + 1) i stdin env).outcome = .exit EXIT_FAILURE) := by
  have ht' : ¬ t = ['e', 'x', 'i', 't'] := ht
  have hrun : dash_execute (some t :: rest) (env i) =
      ⟨[.fork, .execvp t (argv (some t :: rest)),
        .stderr (MAGENTA ++ "bshell: Command not found!" ++ RESET ++ "\n")],
        .exit EXIT_FAILURE⟩ := by
    simp [dash_execute, ht', hfork, hexec, hr]
  refine ⟨hrun, by decide, ?_, ?_⟩
  · intro β f
    rw [hrun]
    rfl
  · intro n stdin lr hread hsplit
    exact loop_from_exit n i stdin env lr _ _ hread hsplit (by rw [hrun])

theorem dash_execute_child_failure_witness :
    (dash_execute [some "nosuchcmd".toList, none] ⟨0, some (-1), 0⟩).outcome = .exit 1 ∧
    (loop "nosuchcmd\necho\n".toList (fun _ => ⟨0, some (-1), 0⟩)).outcome = .exit 1 :=
  ⟨by decide,
    (dash_execute_child_failure "nosuchcmd".toList [none] (fun _ => ⟨0, some (-1), 0⟩) 0 (-1)
      (by decide) rfl rfl (by decide)).2.2.2 _ "nosuchcmd\necho\n".toList
      ("nosuchcmd".toList, "echo\n".toList) (by decide) (by decide)⟩

/-- C12: for a line that is a C string (no NUL inside), the tokens of the
array that `split_line` returns are contiguous substrings of the line: the
line is a gap, the first token, a gap, the second token, and so on up to a
last gap, every gap being made of delimiters.  With `offs` the positions at
which the tokens start, every token is non-empty and is the substring found at
its position, a token starts before and ends at or before the start of every
later token, and a character of the line that lies in no token is a
delimiter. -/
theorem split_line_tokens_located (line : List Char) (h0 : '\x00' ∉ line) :
    (line.length + TOKEN_BUFFER_SIZE ≤ INT_MAX → ∃ args, split_line line = .ret args) ∧
    ∀ args, split_line line = .ret args →
      ∃ (tokens gaps : List (List Char)) (offs : List Nat),
        args = tokens.map some ++ [none] ∧
        offs.length = tokens.length ∧
        gaps.length = tokens.length + 1 ∧
        (∀ g ∈ gaps, ∀ c ∈ g, c ∈ TOK_DELIM) ∧
        line = weave gaps tokens ∧
        (∀ a ∈ tokens.zip offs, a.1 ≠ [] ∧ (line.drop a.2).take a.1.length = a.1) ∧
        (tokens.zip offs).Pairwise (fun a b => a.2 < b.2 ∧ a.2 + a.1.length ≤ b.2) ∧
        (∀ (p : Nat) (c : Char), (line)[p]? = some c →
          (∀ a ∈ tokens.zip offs, ¬ (a.2 ≤ p ∧ p < a.2 + a.1.length)) → c ∈ TOK_DELIM) := by
  refine ⟨fun hlen => ⟨_, split_line_of_short_line line hlen⟩, ?_⟩
  intro args h
  obtain ⟨gaps, hgl, hgd, hgw⟩ := strtok_all_weave (line.length + 1) line h0 (by omega)
  have hloc := weave_located (tokens_of line) gaps [] hgl
  have hw : weave gaps (tokens_of line) = line := hgw
  simp only [List.length_nil, List.nil_append, hw] at hloc
  obtain ⟨h1, h2, h3, h4⟩ := hloc
  have hne : ∀ a ∈ (tokens_of line).zip (offsets 0 gaps (tokens_of line)), a.1 ≠ [] := by
    intro a ha
    exact (strtok_all_token _ line a.1 (List.of_mem_zip ha).1).1
  refine ⟨tokens_of line, gaps, offsets 0 gaps (tokens_of line), split_line_ret line args h,
    h1, hgl, hgd, hw.symm, ?_, ?_, ?_⟩
  · intro a ha
    exact ⟨hne a ha, (h2 a ha).2⟩
  · refine List.Pairwise.imp_of_mem ?_ h3
    intro a b ha _ hab
    have := List.length_pos.mpr (hne a ha)
    exact ⟨by omega, hab⟩
  · intro p c hpc hnot
    obtain ⟨g, hg, hc⟩ := h4 p c (Nat.zero_le _) hpc hnot
    exact hgd g hg c hc

theorem split_line_tokens_located_witness :
    '\x00' ∉ "\tls\t\t-la\r\n".toList ∧
    ∃ (tokens gaps : List (List Char)) (offs : List Nat),
      [some "ls".toList, some "-la".toList, none] = tokens.map some ++ [none] ∧
      offs.length = tokens.length ∧
      gaps.length = tokens.length + 1 ∧
      (∀ g ∈ gaps, ∀ c ∈ g, c ∈ TOK_DELIM) ∧
      "\tls\t\t-la\r\n".toList = weave gaps tokens ∧
      (∀ a ∈ tokens.zip offs,
        a.1 ≠ [] ∧ ("\tls\t\t-la\r\n".toList.drop a.2).take a.1.length = a.1) ∧
      (tokens.zip offs).Pairwise (fun a b => a.2 < b.2 ∧ a.2 + a.1.length ≤ b.2) ∧
      (∀ (p : Nat) (c : Char), ("\tls\t\t-la\r\n".toList)[p]? = some c →
        (∀ a ∈ tokens.zip offs, ¬ (a.2 ≤ p ∧ p < a.2 + a.1.length)) → c ∈ TOK_DELIM) :=
  ⟨by decide,
    (split_line_tokens_located "\tls\t\t-la\r\n".toList (by decide)).2 _ (by decide)⟩

/-- C18: tokenizing is stable on its own output.  When `split_line` returns
an array for a line, `split_line` applied to any token of that array returns
that token alone, and `split_line` applied to the tokens joined by single tabs
returns the same array. -/
theorem split_line_stable (line : List Char) :
    (line.length + TOKEN_BUFFER_SIZE ≤ INT_MAX → ∃ args, split_line line = .ret args) ∧
    ∀ args, split_line line = .ret args →
      (∀ t, some t ∈ args → split_line t = .ret [some t, none]) ∧
      split_line (List.intercalate ['\t'] (argv args)) = .ret args := by
  refine ⟨fun hlen => ⟨_, split_line_of_short_line line hlen⟩, ?_⟩
  intro args h
  have hvalid := strtok_all_token (line.length + 1) line
  constructor
  · intro t ht
    obtain ⟨hne, hc⟩ := hvalid t (mem_tokens_of_mem_args line args h t ht)
    exact split_line_of_no_delim t hne (fun hmem => (hc _ hmem).2 rfl) (fun c hmem => (hc c hmem).1)
  · have hargs := split_line_ret line args h
    have hargv : argv args = tokens_of line := by rw [hargs, argv_map_some]
    have htok : tokens_of (List.intercalate ['\t'] (tokens_of line)) = tokens_of line :=
      strtok_all_intercalate (tokens_of line) hvalid _ (by omega)
    rw [hargv, split_line_eq, htok, ← split_line_eq, h]

theorem split_line_stable_witness :
    split_line "ls\t\t-la\r\n/tmp".toList
      = .ret [some "ls".toList, some "-la".toList, some "/tmp".toList, none] ∧
    (∀ t, some t ∈ [some "ls".toList, some "-la".toList, some "/tmp".toList, none] →
      split_line t = .ret [some t, none]) ∧
    split_line "ls\t-la\t/tmp".toList
      = .ret [some "ls".toList, some "-la".toList, some "/tmp".toList, none] :=
  ⟨by decide,
    (split_line_stable "ls\t\t-la\r\n/tmp".toList).2
      [some "ls".toList, some "-la".toList, some "/tmp".toList, none] (by decide)⟩

/-- C15: the buffer of `read_line`.  Before any character is stored the
capacity is 1024.  The state after `chars` have been stored exists whenever
`chars` leaves room for one increment within `int`; in that state the buffer
holds exactly `chars` and the capacity is `1024 * (n / 1024 + 1)` for the
number `n` of characters stored.  Storing one more character keeps the
characters already stored and either leaves the capacity as it is, the number
of stored characters staying below it, or adds 1024 to it, the number of
stored characters having reached it.  These are the states `read_line` goes
through on a line that starts with `chars`. -/
theorem read_line_capacity (chars : List Char) :
    read_line_stored [] = .ok ([], 1024) ∧
    (chars.length + LINE_BUFFER_SIZE ≤ INT_MAX → ∃ st, read_line_stored chars = .ok st) ∧
    (∀ st, read_line_stored chars = .ok st →
      st.1 = chars ∧ st.2 = 1024 * (chars.length / 1024 + 1)) ∧
    (∀ c st st', read_line_stored chars = .ok st →
      read_line_stored (chars ++ [c]) = .ok st' →
      st'.1 = st.1 ++ [c] ∧
      ((st.1.length + 1 < st.2 ∧ st'.2 = st.2) ∨
        (st.2 ≤ st.1.length + 1 ∧ st'.2 = st.2 + 1024))) ∧
    ((∀ c ∈ chars, c ≠ '\n') → ∀ tail,
      read_line (chars ++ tail) =
        match read_line_stored chars with
        | .ok st => read_line_loop tail st.1 st.2
        | .out_of_bounds => ⟨[], .undefined⟩
        | .overflow => ⟨[], .undefined⟩) := by
  refine ⟨rfl, ?_, ?_, ?_, fun hnl tail => read_line_eq_stored chars tail hnl⟩
  · intro hlen
    exact store_all_ok LINE_BUFFER_SIZE (by decide) chars [] LINE_BUFFER_SIZE (by decide)
      (by simpa using hlen)
  · intro st hst
    have hinv := (store_all_inv LINE_BUFFER_SIZE (by decide) chars [] LINE_BUFFER_SIZE
      (by decide)).2 st hst
    have hcap := store_all_capacity LINE_BUFFER_SIZE capacity_arith_line chars []
      LINE_BUFFER_SIZE (by decide) st hst
    simp only [List.nil_append] at hinv
    rw [hinv.1] at hcap
    exact ⟨hinv.1, hcap⟩
  · intro c st st' hst hst'
    have happ := store_all_append_singleton LINE_BUFFER_SIZE chars c [] LINE_BUFFER_SIZE
    have hst1 : store_all LINE_BUFFER_SIZE chars [] LINE_BUFFER_SIZE = .ok st := hst
    have hst2 : store_all LINE_BUFFER_SIZE (chars ++ [c]) [] LINE_BUFFER_SIZE = .ok st' := hst'
    rw [hst1, hst2] at happ
    obtain ⟨_, h1, h2⟩ := store_ok LINE_BUFFER_SIZE c st.1 st.2 st' happ.symm
    refine ⟨h1, ?_⟩
    rcases h2 with ⟨h3, h4, _⟩ | ⟨h3, h4⟩
    · exact Or.inr ⟨h3, h4⟩
    · exact Or.inl ⟨h3, h4⟩

/-- C16: the array of `split_line`.  On a line that fits in an `int` with room
for one increment, hence on every line that `read_line` returns, `split_line`
returns; the array it returns holds the tokens
of the line at the indices `0 .. n - 1` and the null pointer at the index `n`.
Whatever the number `k` of tokens stored so far, storing them never wrote
outside the array, and in the state reached the array holds these `k` tokens,
`k` is below the capacity, so that the next write, of a token or of the null
pointer, is inside the array, and the capacity is `256 * (k / 256 + 1)`.
These are the states `split_line` goes through. -/
theorem split_line_array (line : List Char) :
    (line.length + TOKEN_BUFFER_SIZE ≤ INT_MAX → ∃ args, split_line line = .ret args) ∧
    (∀ stdin rest, (read_line stdin).outcome = .ret (line, rest) →
      ∃ args, split_line line = .ret args) ∧
    (∀ args, split_line line = .ret args →
      args = (tokens_of line).map some ++ [none] ∧
      (∀ (i : Nat) (t : List Char), (tokens_of line)[i]? = some t →
        (args)[i]? = some (some t)) ∧
      (args)[(tokens_of line).length]? = some none) ∧
    (∀ k, split_line_stored ((tokens_of line).take k) ≠ .out_of_bounds ∧
      ∀ st, split_line_stored ((tokens_of line).take k) = .ok st →
        st.1 = (tokens_of line).take k ∧ st.1.length < st.2 ∧
        st.2 = 256 * (st.1.length / 256 + 1)) ∧
    split_line line =
      (match split_line_stored (tokens_of line) with
      | .ok st => if st.1.length < st.2 then .ret (st.1.map some ++ [none]) else .undefined
      | .out_of_bounds => .undefined
      | .overflow => .undefined) := by
  refine ⟨fun hlen => ⟨_, split_line_of_short_line line hlen⟩,
    fun stdin rest h => ⟨_, split_line_of_read_line stdin (line, rest) h⟩,
    ?_, ?_, split_line_eq line⟩
  · intro args h
    have hargs := split_line_ret line args h
    refine ⟨hargs, ?_, ?_⟩
    · intro i t hi
      have hlt : i < ((tokens_of line).map some).length := by
        rw [List.length_map]
        by_contra hge
        rw [List.getElem?_eq_none (by omega)] at hi
        cases hi
      rw [hargs, List.getElem?_append_left hlt, List.getElem?_map, hi]
      rfl
    · rw [hargs, List.getElem?_append_right (by simp)]
      simp
  · intro k
    have hinv := store_all_inv TOKEN_BUFFER_SIZE (by decide) ((tokens_of line).take k) []
      TOKEN_BUFFER_SIZE (by decide)
    refine ⟨hinv.1, ?_⟩
    intro st hst
    have h1 := hinv.2 st hst
    have hcap := store_all_capacity TOKEN_BUFFER_SIZE capacity_arith_token
      ((tokens_of line).take k) [] TOKEN_BUFFER_SIZE (by decide) st hst
    simp only [List.nil_append] at h1
    exact ⟨h1.1, h1.2, hcap⟩

/-- C17: the writes of `read_line`.  Whatever characters have been stored,
storing them never wrote outside the buffer, and in the state reached
`position < buffsize` holds, so that the next write, of a character or of the
closing NUL, is inside the buffer.  These are the states `read_line` goes
through on a line that starts with `chars`; and on every input stream, a run
of `read_line` that is undefined is so by the overflow of the capacity on a
line of `INT_MAX + 1 - 1024` characters or more, never by a write outside the
buffer. -/
theorem read_line_writes_in_bounds (chars : List Char) :
    read_line_stored chars ≠ .out_of_bounds ∧
    (∀ st, read_line_stored chars = .ok st → st.1 = chars ∧ st.1.length < st.2) ∧
    ((∀ c ∈ chars, c ≠ '\n') → ∀ tail,
      read_line (chars ++ tail) =
        match read_line_stored chars with
        | .ok st => read_line_loop tail st.1 st.2
        | .out_of_bounds => ⟨[], .undefined⟩
        | .overflow => ⟨[], .undefined⟩) ∧
    (∀ stdin, (read_line stdin).outcome = .undefined →
      INT_MAX < (stdin.takeWhile (fun c => c != '\n')).length + LINE_BUFFER_SIZE) := by
  have hinv := store_all_inv LINE_BUFFER_SIZE (by decide) chars [] LINE_BUFFER_SIZE
    (by decide)
  refine ⟨hinv.1, ?_, fun hnl tail => read_line_eq_stored chars tail hnl, ?_⟩
  · intro st hst
    have h1 := hinv.2 st hst
    simp only [List.nil_append] at h1
    exact h1
  · intro stdin hund
    by_contra hle
    have h := read_line_loop_eq stdin [] LINE_BUFFER_SIZE (by decide)
      (by simp only [List.length_nil]; omega)
    have h' : (read_line stdin).outcome = (read_line_loop stdin [] LINE_BUFFER_SIZE).outcome :=
      rfl
    rw [h', h] at hund
    cases hund

theorem read_line_capacity_witness :
    ∃ st, read_line_stored (List.replicate 2000 'a') = .ok st ∧
      st.1 = List.replicate 2000 'a' ∧ st.2 = 2048 := by
  obtain ⟨st, hst⟩ := (read_line_capacity (List.replicate 2000 'a')).2.1
    (by rw [List.length_replicate]; decide)
  have h := (read_line_capacity (List.replicate 2000 'a')).2.2.1 st hst
  rw [List.length_replicate] at h
  exact ⟨st, hst, h.1, h.2⟩

theorem split_line_array_witness :
    split_line "ls\t-la\t\t/tmp\r\n".toList
      = .ret [some "ls".toList, some "-la".toList, some "/tmp".toList, none] ∧
    ([some "ls".toList, some "-la".toList, some "/tmp".toList, none] :
      List (Option (List Char)))[(tokens_of "ls\t-la\t\t/tmp\r\n".toList).length]? = some none ∧
    tokens_of (List.intercalate ['\t'] (List.replicate 300 ['a'])) = List.replicate 300 ['a'] ∧
    ∃ st, split_line_stored (List.replicate 300 ['a']) = .ok st ∧
      st.1.length = 300 ∧ st.2 = 512 := by
  have hvalid : ∀ t ∈ List.replicate 300 ['a'],
      t ≠ [] ∧ ∀ c ∈ t, c ∉ TOK_DELIM ∧ c ≠ '\x00' := by
    intro t ht
    rw [List.eq_of_mem_replicate ht]
    decide
  have htok : tokens_of (List.intercalate ['\t'] (List.replicate 300 ['a']))
      = List.replicate 300 ['a'] := by
    unfold tokens_of
    exact strtok_all_intercalate (List.replicate 300 ['a']) hvalid
      ((List.intercalate ['\t'] (List.replicate 300 ['a'])).length + 1) (Nat.lt_add_one _)
  have htake : (List.replicate 300 ['a']).take 300 = List.replicate 300 ['a'] := by
    rw [List.take_of_length_le (by rw [List.length_replicate])]
  have hk := (split_line_array (List.intercalate ['\t'] (List.replicate 300 ['a']))).2.2.2.1 300
  rw [htok, htake] at hk
  obtain ⟨st, hst⟩ := store_all_ok TOKEN_BUFFER_SIZE (by decide) (List.replicate 300 ['a']) []
    TOKEN_BUFFER_SIZE (by decide) (by rw [List.length_replicate]; decide)
  obtain ⟨h1, _, h3⟩ := hk.2 st hst
  have hlen : st.1.length = 300 := by rw [h1, List.length_replicate]
  rw [hlen] at h3
  exact ⟨by decide,
    ((split_line_array "ls\t-la\t\t/tmp\r\n".toList).2.2.1 _ (by decide)).2.2,
    htok, st, hst, hlen, h3⟩

theorem read_line_writes_in_bounds_witness :
    ∃ st, read_line_stored (List.replicate 2000 'a') = .ok st ∧ st.1.length < st.2 := by
  obtain ⟨st, hst⟩ := store_all_ok LINE_BUFFER_SIZE (by decide) (List.replicate 2000 'a') []
    LINE_BUFFER_SIZE (by decide) (by rw [List.length_replicate]; decide)
  exact ⟨st, hst, ((read_line_writes_in_bounds (List.replicate 2000 'a')).2.1 st hst).2⟩

end BShell
